import Mathlib

set_option maxHeartbeats 1000000
set_option maxRecDepth 100000

namespace Mcli

/-!
Shallow embedding of the mcli command line interpreter
(src/unnamed/part_002, the most complete variant of mcli.c, together with
the declarations of src/unnamed/part_000 and part_001).

Bytes are modelled as `Nat` values below 256; C `uint32_t` arithmetic is
modelled as `Nat` arithmetic with explicit reduction modulo `2 ^ 32` at the
points where C wraparound can occur.  Fixed byte arrays are modelled as
`List Nat` of the corresponding length.
-/

/-- RX_BUFFER_SIZE from mcli.c (must be a power of 2). -/
def RX_BUFFER_SIZE : Nat := 128

/-- CMD_BUFFER_SIZE from mcli.c. -/
def CMD_BUFFER_SIZE : Nat := 128

/-- MAX_NUM_ARGS from mcli.c: maximum number of arguments after the command name. -/
def MAX_NUM_ARGS : Nat := 7

/-- HISTORY_SIZE from mcli.c: byte capacity of the history arena. -/
def HISTORY_SIZE : Nat := 1024

/-- Modulus of `uint32_t` arithmetic. -/
def U32 : Nat := 2 ^ 32

/-- The value of the C expression `a - b` at type `uint32_t`, for `a, b < 2 ^ 32`. -/
def u32sub (a b : Nat) : Nat := (a + (U32 - b)) % U32

/-! ### Ring buffer (mcli.c lines 20-31, 104-111, 550-594) -/

/-- The `ringBuf` structure of mcli.c.  `data` is the backing byte array. -/
structure RingBuf where
  data : List Nat
  size : Nat
  writeIndex : Nat
  readIndex : Nat
  overflow : Bool
deriving DecidableEq

/-- The initial value of the static `rxBuffer` of mcli.c. -/
def rxBuffer0 : RingBuf :=
  { data := List.replicate RX_BUFFER_SIZE 0
    size := RX_BUFFER_SIZE
    writeIndex := 0
    readIndex := 0
    overflow := false }

/-- `bufPush` from mcli.c: returns the `int32_t` status (0 ok, -1 full) and the
updated buffer.  The index wraps with `& (size - 1)` exactly as in the source. -/
def bufPush (buf : RingBuf) (value : Nat) : Int × RingBuf :=
  let nextWI := Nat.land (buf.writeIndex + 1) (buf.size - 1)
  if nextWI ≠ buf.readIndex then
    (0, { buf with data := buf.data.set buf.writeIndex value, writeIndex := nextWI })
  else
    (-1, buf)

/-- `bufPop` from mcli.c: returns the popped byte (0 when empty) and the
updated buffer. -/
def bufPop (buf : RingBuf) : Nat × RingBuf :=
  if buf.readIndex ≠ buf.writeIndex then
    (buf.data.getD buf.readIndex 0,
      { buf with readIndex := Nat.land (buf.readIndex + 1) (buf.size - 1) })
  else
    (0, buf)

/-- `bufIsEmpty` from mcli.c. -/
def bufIsEmpty (buf : RingBuf) : Bool := buf.readIndex == buf.writeIndex

/-- An abstract push or pop request against the ring buffer. -/
inductive BufOp where
  | push (b : Nat)
  | pop
deriving DecidableEq

/-- One operation applied to (buffer, successful pushes so far, pops that
returned a stored byte so far). -/
def bufStep : RingBuf × Nat × Nat → BufOp → RingBuf × Nat × Nat
  | (buf, pushes, pops), .push b =>
    let r := bufPush buf b
    (r.2, if r.1 = 0 then pushes + 1 else pushes, pops)
  | (buf, pushes, pops), .pop =>
    ((bufPop buf).2, pushes, if bufIsEmpty buf then pops else pops + 1)

/-- Run a sequence of operations from the initial `rxBuffer` state, counting
successful pushes and non-empty pops. -/
def bufRun (ops : List BufOp) : RingBuf × Nat × Nat :=
  ops.foldl bufStep (rxBuffer0, 0, 0)

/-- Number of unread bytes currently held by the ring buffer. -/
def bufCount (buf : RingBuf) : Nat := (buf.writeIndex + 128 - buf.readIndex) % 128

/-- Invariant tying the ring-buffer indices to the push/pop counters. -/
def BufInv (s : RingBuf × Nat × Nat) : Prop :=
  s.1.size = 128 ∧ s.1.data.length = 128 ∧ s.1.writeIndex < 128 ∧ s.1.readIndex < 128 ∧
    bufCount s.1 + s.2.2 = s.2.1 ∧ bufCount s.1 ≤ 127

theorem land127 : ∀ n < 128, Nat.land (n + 1) 127 = (n + 1) % 128 := by decide

theorem bufCount_eq (w r : Nat) (hw : w < 128) (hr : r < 128) :
    (w + 128 - r) % 128 = if r ≤ w then w - r else w + 128 - r := by
  rcases le_or_lt r w with h | h
  · have h1 : w + 128 - r = (w - r) + 1 * 128 := by omega
    simp only [if_pos h, h1, Nat.add_mul_mod_self_right]
    exact Nat.mod_eq_of_lt (by omega)
  · rw [if_neg (by omega)]
    exact Nat.mod_eq_of_lt (by omega)

theorem bufStep_inv (s : RingBuf × Nat × Nat) (op : BufOp) (h : BufInv s) :
    BufInv (bufStep s op) := by
  obtain ⟨buf, pushes, pops⟩ := s
  simp only [BufInv] at h
  obtain ⟨hsz, hdl, hw, hr, hcnt, hle⟩ := h
  simp only [BufInv]
  have hmask : buf.size - 1 = 127 := by rw [hsz]
  simp only [bufCount] at hcnt hle
  rw [bufCount_eq _ _ hw hr] at hcnt hle
  have hm1 : (buf.writeIndex + 1) % 128 =
      if buf.writeIndex + 1 < 128 then buf.writeIndex + 1 else 0 := by
    rcases Nat.lt_or_ge (buf.writeIndex + 1) 128 with h1 | h1
    · rw [if_pos h1, Nat.mod_eq_of_lt h1]
    · have : buf.writeIndex + 1 = 128 := by omega
      rw [this, if_neg (by omega)]
  have hm2 : (buf.readIndex + 1) % 128 =
      if buf.readIndex + 1 < 128 then buf.readIndex + 1 else 0 := by
    rcases Nat.lt_or_ge (buf.readIndex + 1) 128 with h1 | h1
    · rw [if_pos h1, Nat.mod_eq_of_lt h1]
    · have : buf.readIndex + 1 = 128 := by omega
      rw [this, if_neg (by omega)]
  cases op with
  | push b =>
    simp only [bufStep, bufPush, hmask, land127 buf.writeIndex hw]
    by_cases hfull : (buf.writeIndex + 1) % 128 ≠ buf.readIndex
    · simp only [if_pos hfull]
      have hwnew : (buf.writeIndex + 1) % 128 < 128 := Nat.mod_lt _ (by omega)
      refine ⟨hsz, by simpa using hdl, hwnew, hr, ?_, ?_⟩ <;>
      · simp only [bufCount]
        rw [bufCount_eq _ _ hwnew hr, hm1]
        rw [hm1] at hfull
        split at hfull <;> split_ifs at hcnt hle ⊢ <;> omega
    · simp only [if_neg hfull]
      exact ⟨hsz, hdl, hw, hr, by simp only [bufCount]; rw [bufCount_eq _ _ hw hr]; exact hcnt,
        by simp only [bufCount]; rw [bufCount_eq _ _ hw hr]; exact hle⟩
  | pop =>
    simp only [bufStep, bufPop, bufIsEmpty]
    by_cases hne : buf.readIndex ≠ buf.writeIndex
    · have hbne : (buf.readIndex == buf.writeIndex) = false := by simpa using hne
      simp only [if_pos hne, hmask, land127 buf.readIndex hr, hbne, Bool.false_eq_true,
        if_false]
      have hrnew : (buf.readIndex + 1) % 128 < 128 := Nat.mod_lt _ (by omega)
      refine ⟨hsz, hdl, hw, hrnew, ?_, ?_⟩ <;>
      · simp only [bufCount]
        rw [bufCount_eq _ _ hw hrnew, hm2]
        split_ifs at hcnt hle ⊢ <;> omega
    · have hbeq : (buf.readIndex == buf.writeIndex) = true := by simpa using hne
      simp only [if_neg hne, hbeq, if_true]
      exact ⟨hsz, hdl, hw, hr, by simp only [bufCount]; rw [bufCount_eq _ _ hw hr]; exact hcnt,
        by simp only [bufCount]; rw [bufCount_eq _ _ hw hr]; exact hle⟩

theorem bufRun_inv (ops : List BufOp) : BufInv (bufRun ops) := by
  have base : BufInv (rxBuffer0, 0, 0) := by
    refine ⟨rfl, by simp [rxBuffer0, RX_BUFFER_SIZE], by simp [rxBuffer0], by simp [rxBuffer0],
      ?_, ?_⟩ <;> simp [bufCount, rxBuffer0]
  rw [bufRun]
  generalize hstart : (rxBuffer0, 0, 0) = s at base
  clear hstart
  induction ops generalizing s with
  | nil => exact base
  | cons op ops ih => exact ih _ (bufStep_inv s op base)

/-- C4: for every sequence of push and pop operations from the initial ring
buffer state, `bufIsEmpty` holds iff the number of successful pushes equals
the number of pops that returned a stored byte; and a push onto a full buffer
(127 = capacity - 1 stored bytes) reports failure and returns the buffer
completely unchanged (indices and stored bytes included). -/
theorem C4_ring_buffer_empty_iff_and_full_push (ops : List BufOp) (v : Nat) :
    (bufIsEmpty (bufRun ops).1 = true ↔ (bufRun ops).2.1 = (bufRun ops).2.2) ∧
      (bufCount (bufRun ops).1 = 127 → bufPush (bufRun ops).1 v = (-1, (bufRun ops).1)) := by
  obtain ⟨hsz, hdl, hw, hr, hcnt, hle⟩ := bufRun_inv ops
  set s := bufRun ops with hs
  constructor
  · simp only [bufIsEmpty, beq_iff_eq]
    have hkey : bufCount s.1 = 0 ↔ s.1.readIndex = s.1.writeIndex := by
      simp only [bufCount]
      rw [bufCount_eq _ _ hw hr]
      split_ifs <;> omega
    constructor
    · intro hweq
      have h0 : bufCount s.1 = 0 := hkey.mpr hweq
      omega
    · intro hpp
      exact hkey.mp (by omega)
  · intro hfull
    simp only [bufCount] at hfull
    rw [bufCount_eq _ _ hw hr] at hfull
    have hmask : s.1.size - 1 = 127 := by rw [hsz]
    have hnext : Nat.land (s.1.writeIndex + 1) 127 = (s.1.writeIndex + 1) % 128 :=
      land127 _ hw
    have heq : (s.1.writeIndex + 1) % 128 = s.1.readIndex := by
      have hm : (s.1.writeIndex + 1) % 128 =
          if s.1.writeIndex + 1 < 128 then s.1.writeIndex + 1 else 0 := by
        rcases Nat.lt_or_ge (s.1.writeIndex + 1) 128 with h1 | h1
        · rw [if_pos h1, Nat.mod_eq_of_lt h1]
        · have : s.1.writeIndex + 1 = 128 := by omega
          rw [this]
          simp
      rw [hm]
      split at hfull <;> split <;> omega
    simp [bufPush, hmask, hnext, heq]

/-- Concrete instantiation of the full-buffer part of C4: after 127 pushes the
buffer holds 127 bytes and a further push fails without touching the state. -/
theorem C4_ring_buffer_witness :
    bufCount (bufRun (List.replicate 127 (BufOp.push 65))).1 = 127 ∧
      bufPush (bufRun (List.replicate 127 (BufOp.push 65))).1 3 =
        (-1, (bufRun (List.replicate 127 (BufOp.push 65))).1) :=
  ⟨by decide, (C4_ring_buffer_empty_iff_and_full_push (List.replicate 127 (BufOp.push 65)) 3).2
    (by decide)⟩

/-- C9: popping from an empty ring buffer (read index equal to write index)
returns the sentinel 0 and leaves the whole state unchanged. -/
theorem C9_pop_empty_returns_zero_unchanged (buf : RingBuf)
    (h : buf.readIndex = buf.writeIndex) : bufPop buf = (0, buf) := by
  simp [bufPop, h]

/-- Witness for C9 at the initial ring buffer state. -/
theorem C9_pop_empty_witness : rxBuffer0.readIndex = rxBuffer0.writeIndex ∧
    bufPop rxBuffer0 = (0, rxBuffer0) :=
  ⟨rfl, C9_pop_empty_returns_zero_unchanged rxBuffer0 rfl⟩

/-! ### Byte classification (mcli.c lines 149-167 and 298-309)

On the target (ARM EABI) `char` is unsigned, so a received byte ranges over
0..255.  Note that with a signed `char` the function below would compute the
same results, because `c & 0x7F` is taken in promoted `int` arithmetic and
lands in 0..127 either way. -/

/-- `isPrintableChar` from mcli.c: clears the most significant bit of the
byte and then tests `(c & 0x60) && (c != 0x7F)`. -/
def isPrintableChar (c : Nat) : Bool :=
  let c' := Nat.land c 0x7F
  (Nat.land c' 0x60 != 0) && (c' != 0x7F)

/-- The four ways `cli_process` can route one received byte, following the
chain of conditions in its while loop. -/
inductive Route where
  | escSwallow   -- previous byte was ESC and c = open bracket: consumed silently
  | escape       -- previous two bytes were ESC, open bracket: handle_escape_char
  | printable    -- isPrintableChar: handle_printable_char
  | control      -- otherwise: handle_control_char
deriving DecidableEq

/-- The routing decision of `cli_process` for byte `c` given the two
previously processed bytes (`previous_char[0]` and `previous_char[1]`). -/
def classifyByte (prev0 prev1 c : Nat) : Route :=
  if prev0 = 0x1B ∧ c = 0x5B then .escSwallow
  else if prev0 = 0x5B ∧ prev1 = 0x1B then .escape
  else if isPrintableChar c then .printable
  else .control

/-- C5 counterexample: the byte 0xA0 is outside ASCII 0x20..0x7E, yet in a
non-escape context `cli_process` routes it to the insert handler, because
`isPrintableChar` first clears the high bit (0xA0 & 0x7F = 0x20). -/
theorem C5_printable_iff_counterexample :
    classifyByte 0 0 0xA0 = Route.printable ∧ ¬(0x20 ≤ 0xA0 ∧ 0xA0 ≤ 0x7E) := by
  constructor
  · rfl
  · decide

theorem land127_id : ∀ c < 128, Nat.land c 127 = c := by decide

theorem isPrintableChar_char : ∀ c < 256,
    (isPrintableChar c = true ↔ (0x20 ≤ Nat.land c 0x7F ∧ Nat.land c 0x7F ≤ 0x7E)) := by
  decide

/-- C5 amended: for a byte that is not consumed as part of an escape sequence,
`cli_process` dispatches to the insert handler iff the byte with its most
significant bit cleared (`c & 0x7F`) lies in 0x20..0x7E; for 7-bit bytes
(`c ≤ 0x7F`) this coincides with the claimed range 0x20..0x7E. -/
theorem C5_printable_classification (prev0 prev1 c : Nat) (hc : c < 256)
    (h1 : ¬(prev0 = 0x1B ∧ c = 0x5B)) (h2 : ¬(prev0 = 0x5B ∧ prev1 = 0x1B)) :
    (classifyByte prev0 prev1 c = Route.printable ↔
      (0x20 ≤ Nat.land c 0x7F ∧ Nat.land c 0x7F ≤ 0x7E)) ∧
      (c ≤ 0x7F → Nat.land c 0x7F = c) := by
  constructor
  · rw [classifyByte, if_neg h1, if_neg h2]
    rcases hp : isPrintableChar c with hf | ht
    · simp only [if_neg, Bool.false_eq_true, if_false]
      constructor
      · intro hcontra
        exact absurd hcontra (by simp)
      · intro hrange
        exact absurd ((isPrintableChar_char c hc).mpr hrange) (by simp [hp])
    · simp only [if_pos, if_true]
      constructor
      · intro _
        exact (isPrintableChar_char c hc).mp hp
      · intro _
        trivial
  · intro hle
    exact land127_id c (by omega)

/-- Witness for C5 amended at byte 0x41 in a neutral context. -/
theorem C5_printable_classification_witness :
    (classifyByte 0 0 0x41 = Route.printable ↔
      (0x20 ≤ Nat.land 0x41 0x7F ∧ Nat.land 0x41 0x7F ≤ 0x7E)) ∧
      (0x41 ≤ 0x7F → Nat.land 0x41 0x7F = 0x41) :=
  C5_printable_classification 0 0 0x41 (by decide) (by decide) (by decide)

/-! ### Text buffer and the line editor (mcli.c lines 33-43, 116-121, 180-331) -/

/-- The `txtBuf` structure of mcli.c. -/
structure TxtBuf where
  data : List Nat
  size : Nat
  len : Nat
  cursorOffset : Nat
deriving DecidableEq

/-- The initial value of the static `cmdBuffer` of mcli.c. -/
def cmdBuffer0 : TxtBuf :=
  { data := List.replicate CMD_BUFFER_SIZE 0
    size := CMD_BUFFER_SIZE
    len := 0
    cursorOffset := 0 }

/-- The effect of `memmove_(&data[dst], &data[src], n)` on the fixed command
buffer.  `memmove_` is declared in utils.h (part_000/part_001); its definition
is not under src/, so the standard overlap-safe memmove contract is used:
positions dst..dst+n-1 receive the bytes previously at src..src+n-1, all other
positions are unchanged.  Writes or reads falling outside the array are
out-of-bounds in C; the model drops such writes and reads 0. -/
def memmoveBuf (data : List Nat) (dst src n : Nat) : List Nat :=
  (List.range data.length).map (fun i =>
    if dst ≤ i ∧ i < dst + n then data.getD (src + (i - dst)) 0 else data.getD i 0)

/-- The effect of `memcpy_(dst, src, n)` where `dst` and `src` are distinct
arrays (standard memcpy contract, definition not under src/). -/
def memcpyBuf (dst src : List Nat) (n : Nat) : List Nat :=
  (List.range dst.length).map (fun i => if i < n then src.getD i 0 else dst.getD i 0)

/-- `handle_printable_char` from mcli.c, restricted to its effect on the
command buffer (the terminal echo is not part of the buffer state). -/
def handle_printable_char (buf : TxtBuf) (c : Nat) : TxtBuf :=
  let cmdBufRWSize := CMD_BUFFER_SIZE - 1
  if cmdBufRWSize ≤ buf.len then buf
  else
    let insert_pos := u32sub buf.len buf.cursorOffset
    let data1 := memmoveBuf buf.data (insert_pos + 1) insert_pos (buf.cursorOffset + 1)
    { buf with data := data1.set insert_pos c, len := (buf.len + 1) % U32 }

/-- The DEL / backspace branch of `handle_control_char` from mcli.c
(lines 281-291): unconditionally shifts `cursorOffset + 1` bytes one place
left, starting at `insert_pos = len - cursorOffset`, and decrements `len`,
both in `uint32_t` arithmetic.  There is no guard for `insert_pos = 0`. -/
def backspaceEdit (buf : TxtBuf) : TxtBuf :=
  let insert_pos := u32sub buf.len buf.cursorOffset
  let data1 := memmoveBuf buf.data (u32sub insert_pos 1) insert_pos (buf.cursorOffset + 1)
  { buf with data := data1, len := u32sub buf.len 1 }

/-- `reset_cmdBuffer` from mcli.c. -/
def reset_cmdBuffer (buf : TxtBuf) : TxtBuf :=
  { buf with data := buf.data.set 0 0, len := 0, cursorOffset := 0 }

/-- `isBlank` from mcli.c: true iff none of the first `len` bytes is printable. -/
def isBlank (buf : TxtBuf) : Bool :=
  (List.range buf.len).all (fun i => !isPrintableChar (buf.data.getD i 0))

/-- A command buffer holding the single character 'a' with the cursor moved
one position left (cursor before the 'a'); reachable by typing 'a' and
pressing cursor-left once. -/
def c3buf : TxtBuf :=
  { data := 97 :: List.replicate 127 0
    size := CMD_BUFFER_SIZE
    len := 1
    cursorOffset := 1 }

/-- C3 evaluation at the failing inputs: DEL/backspace bytes are routed to
the control-character handler, whose delete branch has no `insert_pos = 0`
guard.  With text "a" and the cursor before it (`insert_pos = 0`) the code
decrements `len` to 0 while `cursorOffset` stays 1, breaking the invariant
`cursorOffset ≤ len`; on the empty buffer `len` underflows to `2^32 - 1`.
The claim (and spec section 4.2/7) requires a no-op in both situations. -/
theorem C3_backspace_underflow_bug :
    classifyByte 0 0 0x7F = Route.control ∧ classifyByte 0 0 0x08 = Route.control ∧
      (backspaceEdit c3buf).len = 0 ∧ (backspaceEdit c3buf).cursorOffset = 1 ∧
      ¬((backspaceEdit c3buf).cursorOffset ≤ (backspaceEdit c3buf).len) ∧
      (backspaceEdit cmdBuffer0).len = 2 ^ 32 - 1 := by
  refine ⟨by decide, by decide, by decide, by decide, by decide, ?_⟩
  show u32sub cmdBuffer0.len 1 = 2 ^ 32 - 1
  decide

/-! ### Tokenizer and dispatcher (mcli.c lines 350-414) -/

/-- The loop of `tokenize_command` from mcli.c.  It walks the NUL-terminated
string, records a token start (into `argv`) at every non-space byte following
a space, rewrites every space byte to NUL in place, and fails once a token
start is found with `argc` already above MAX_NUM_ARGS.  `i` is the running
index, `prev` the previous byte (a space initially), `out` the processed
prefix of the buffer; on error the partially rewritten buffer is returned. -/
def tokenizeGo : List Nat → Nat → Nat → Nat → List Nat → List Nat →
    Except (List Nat) (Nat × List Nat × List Nat)
  | [], _i, _prev, argc, argv, out => .ok (argc, argv, out)
  | c :: rest, i, prev, argc, argv, out =>
    if c = 0 then .ok (argc, argv, out ++ c :: rest)
    else if c ≠ 32 ∧ prev = 32 then
      if MAX_NUM_ARGS < argc then .error (out ++ c :: rest)
      else tokenizeGo rest (i + 1) c (argc + 1) (argv ++ [i]) (out ++ [c])
    else if c = 32 then tokenizeGo rest (i + 1) c argc argv (out ++ [0])
    else tokenizeGo rest (i + 1) c argc argv (out ++ [c])

/-- `tokenize_command` from mcli.c: `prev` starts as a space and `argc` as 0. -/
def tokenize_command (s : List Nat) : Except (List Nat) (Nat × List Nat × List Nat) :=
  tokenizeGo s 0 32 0 [] []

/-- Number of space-separated tokens in the byte list before its first NUL,
continuing a scan whose previous byte was `prev`. -/
def tokenStarts : List Nat → Nat → Nat
  | [], _ => 0
  | c :: rest, prev =>
    if c = 0 then 0
    else (if c ≠ 32 ∧ prev = 32 then 1 else 0) + tokenStarts rest c

/-- Result of `parse_command`: either a handler from `cmd_table` was invoked,
or no handler ran. -/
inductive ParseResult where
  | dispatched (name : List Nat) (argc : Nat)
  | notFound
  | tooManyArgs
deriving DecidableEq

/-- The C string (bytes up to the first NUL) starting at offset `i` of the
buffer `b`. -/
def cstrAt (b : List Nat) (i : Nat) : List Nat :=
  (b.drop i).takeWhile (fun c => c ≠ 0)

/-- The single command name "help" of the static `cmd_table` of mcli.c. -/
def helpName : List Nat := [104, 101, 108, 112]

/-- `parse_command` from mcli.c: tokenize the buffer, then search `cmd_table`
(single entry "help") comparing `argv[0]` with `strcmp_`; `strcmp_` equality
is modelled as equality of the NUL-terminated byte sequences (its definition
is not under src/; standard strcmp contract per its utils.h declaration).
`CHECK(retval)` propagates the tokenizer failure before any table search, so
no handler is invoked in that case.  Returns the outcome and the mutated
buffer. -/
def parse_command (s : List Nat) : ParseResult × List Nat :=
  match tokenize_command s with
  | .error dat => (.tooManyArgs, dat)
  | .ok (argc, argv, dat) =>
    if cstrAt dat (argv.headD 0) = helpName then (.dispatched helpName argc, dat)
    else (.notFound, dat)

theorem tokenizeGo_error_iff (s : List Nat) :
    ∀ (i prev argc : Nat) (argv out : List Nat), argc ≤ MAX_NUM_ARGS + 1 →
      ((∃ e, tokenizeGo s i prev argc argv out = .error e) ↔
        MAX_NUM_ARGS + 1 < argc + tokenStarts s prev) := by
  induction s with
  | nil =>
    intro i prev argc argv out h
    simp only [tokenizeGo, tokenStarts, MAX_NUM_ARGS] at *
    constructor
    · rintro ⟨e, he⟩
      exact absurd he (by simp)
    · omega
  | cons c rest ih =>
    intro i prev argc argv out h
    simp only [tokenizeGo, tokenStarts]
    by_cases hc0 : c = 0
    · rw [if_pos hc0, if_pos hc0]
      constructor
      · rintro ⟨e, he⟩
        exact absurd he (by simp)
      · simp only [MAX_NUM_ARGS] at *
        omega
    · rw [if_neg hc0, if_neg hc0]
      by_cases hstart : c ≠ 32 ∧ prev = 32
      · rw [if_pos hstart, if_pos hstart]
        by_cases hmax : MAX_NUM_ARGS < argc
        · rw [if_pos hmax]
          simp only [MAX_NUM_ARGS] at *
          constructor
          · intro _
            omega
          · intro _
            exact ⟨out ++ c :: rest, rfl⟩
        · rw [if_neg hmax]
          rw [ih (i + 1) c (argc + 1) (argv ++ [i]) (out ++ [c])
            (by simp only [MAX_NUM_ARGS] at *; omega)]
          simp only [MAX_NUM_ARGS] at *
          omega
      · rw [if_neg hstart, if_neg hstart]
        by_cases hsp : c = 32
        · rw [if_pos hsp]
          rw [ih (i + 1) c argc argv (out ++ [0]) h]
          omega
        · rw [if_neg hsp]
          rw [ih (i + 1) c argc argv (out ++ [c]) h]
          omega

/-- C8: tokenization fails with the too-many-arguments error iff the line
holds more than 8 = MAX_NUM_ARGS + 1 space-separated tokens (command name
plus up to 7 arguments), and whenever tokenization fails `parse_command`
invokes no command handler (it returns before searching the command table). -/
theorem C8_tokenize_too_many_args (s : List Nat) :
    ((∃ e, tokenize_command s = .error e) ↔ MAX_NUM_ARGS + 1 < tokenStarts s 32) ∧
      (∀ e, tokenize_command s = .error e → (parse_command s).1 = .tooManyArgs) := by
  constructor
  · have h := tokenizeGo_error_iff s 0 32 0 [] [] (by simp [MAX_NUM_ARGS])
    rw [tokenize_command]
    rw [h]
    omega
  · intro e he
    simp [parse_command, he]

/-- The bytes of the 9-token line "a b c d e f g h i" followed by the NUL
terminator. -/
def c8line : List Nat :=
  [97, 32, 98, 32, 99, 32, 100, 32, 101, 32, 102, 32, 103, 32, 104, 32, 105, 0]

/-- Witness for C8 on the 9-token line "a b c d e f g h i": tokenization
fails and no handler is dispatched. -/
theorem C8_tokenize_witness :
    (∃ e, tokenize_command c8line = .error e) ∧ (parse_command c8line).1 = .tooManyArgs := by
  obtain ⟨e, he⟩ := (C8_tokenize_too_many_args c8line).1.mpr (by decide)
  exact ⟨⟨e, he⟩, (C8_tokenize_too_many_args c8line).2 e he⟩

/-! ### History store (mcli.c lines 45-54, 126-131, 416-548)

The `cmdHistory` records live inside the static 1024-byte arena of
`history_malloc`; addresses are modelled as arena offsets.  The doubly linked
`prev`/`next` structure built by `history_input` (new node's `next` is the old
newest, old newest's `prev` is the new node) is represented by a Lean list of
the live entries, newest first: `newest_cmd` is the head, `oldest_cmd` the
last element, `->next` moves one position towards the tail and `->prev` one
position towards the head. -/

/-- One `cmdHistory` record: `off` is its arena offset, `asize` the size of
its allocated block (the rounded `size_req`), `cmd_len` the stored `cmd_len`
field, and `stored` the bytes written starting at `&entry->cmd` (the command
text plus the terminating NUL). -/
structure HistEntry where
  off : Nat
  asize : Nat
  cmd_len : Nat
  stored : List Nat
deriving DecidableEq

/-- History state: the live entries (newest first) and the
`next_piece_start` hint of `history_malloc` as an arena offset. -/
structure HistState where
  entries : List HistEntry
  hint : Nat
deriving DecidableEq

/-- `sizeof(cmdHistory)` on the 32-bit ARM target: 4 (`cmd_len`) + 4 (`prev`)
+ 4 (`next`) + 1 (`cmd`), padded to a multiple of 4. -/
def sizeofCmdHistory : Nat := 16

/-- The `while(size_req & 0x03){ size_req++; }` loop of `history_input`:
round up to the next multiple of 4. -/
def roundUp4 (n : Nat) : Nat := if n % 4 = 0 then n else n + (4 - n % 4)

/-- The `size_req` computed by `history_input` for a command of length `len`:
`(sizeof(cmdHistory) - 3) + len`, rounded up to a multiple of 4. -/
def size_req (len : Nat) : Nat := roundUp4 (sizeofCmdHistory - 3 + len)

/-- `history_malloc` from mcli.c, in arena offsets.  Returns the offset of the
granted block; the `next_piece_start` update (always the end of the granted
block) is applied by the caller model `alloc_retry`.  The pointer comparison
`newest_cmd >= oldest_cmd` becomes a comparison of entry offsets; the check
`newest_cmd == NULL` corresponds to an empty entry list. -/
def history_malloc (entries : List HistEntry) (hint n : Nat) : Option Nat :=
  match entries with
  | [] =>
    if n ≤ HISTORY_SIZE then some 0 else none
  | newest :: rest =>
    if (rest.getLastD newest).off ≤ newest.off then
      if hint + n ≤ HISTORY_SIZE then some hint
      else if n ≤ (rest.getLastD newest).off then some 0
      else none
    else
      if hint + n ≤ (rest.getLastD newest).off then some hint else none

/-- `free_oldest_cmd` from mcli.c.  `oldest_cmd` moves to its `prev`; when the
evicted entry was the only live one, that `prev` is NULL and the subsequent
write `oldest_cmd->next = NULL` dereferences a null pointer, modelled as
`none`.  With no oldest entry the function is a no-op. -/
def free_oldest_cmd (st : HistState) : Option HistState :=
  match st.entries with
  | [] => some st
  | [_] => none
  | _ :: _ :: _ => some { entries := st.entries.dropLast, hint := st.hint }

/-- Outcome of the allocation phase of `history_input`: the first
`history_malloc` attempt plus the `while(new_node == NULL)` eviction-retry
loop. -/
inductive AllocOutcome where
  | ok (st : HistState) (off : Nat)
  | dropped (st : HistState)
  | crash
deriving DecidableEq

/-- The allocation-retry loop of `history_input`: on malloc success the hint
is at the end of the granted block; on failure, if `oldest_cmd` is NULL the
command is dropped, otherwise `free_oldest_cmd` runs (crashing on a singleton
history) and the allocation is retried. -/
def alloc_retry (st : HistState) (n : Nat) : AllocOutcome :=
  match history_malloc st.entries st.hint n with
  | some off => .ok { entries := st.entries, hint := off + n } off
  | none =>
    match h : st.entries with
    | [] => .dropped st
    | [_] => .crash
    | e :: f :: rest =>
      alloc_retry { entries := (e :: f :: rest).dropLast, hint := st.hint } n
termination_by st.entries.length
decreasing_by
  simp only [h, List.length_dropLast, List.length_cons]
  omega

/-- The test `strcmp_(a, b) == 0` on byte lists: equality of the
NUL-terminated prefixes (`strcmp_`'s definition is not under src/; this is
the standard strcmp contract implied by its utils.h declaration). -/
def strEqC (a b : List Nat) : Bool :=
  a.takeWhile (fun c => c ≠ 0) == b.takeWhile (fun c => c ≠ 0)

/-- `history_input` from mcli.c.  `none` models the null dereference that
`free_oldest_cmd` performs when the eviction loop empties a singleton
history; otherwise the updated history state is returned.  A command equal
(as a C string) to the newest entry is skipped; a freshly stored record gets
`cmd_len = cmd->len`, the `cmd->len` text bytes, a terminating NUL, and is
linked in as the new newest entry (also becoming oldest if the history was
empty). -/
def history_input (st : HistState) (cmd : TxtBuf) : Option HistState :=
  let repeatHit :=
    match st.entries with
    | newest :: _ => strEqC newest.stored cmd.data
    | [] => false
  if repeatHit then some st
  else
    match alloc_retry st (size_req cmd.len) with
    | .crash => none
    | .dropped st' => some st'
    | .ok st' off =>
      let newNode : HistEntry :=
        { off := off, asize := size_req cmd.len, cmd_len := cmd.len,
          stored := cmd.data.take cmd.len ++ [0] }
      some { entries := newNode :: st'.entries, hint := st'.hint }

/-- `history_display` from mcli.c: reset the command buffer (the on-screen
line is cleared), then, if an entry is given, copy its `cmd_len + 1` stored
bytes to the start of the buffer and set `len = cmd_len`. -/
def history_display (hist_cmd : Option HistEntry) (buf : TxtBuf) : TxtBuf :=
  let buf0 := reset_cmdBuffer buf
  match hist_cmd with
  | none => buf0
  | some e =>
    { buf0 with data := memcpyBuf buf0.data e.stored (e.cmd_len + 1), len := e.cmd_len }

/-! ### History arena layout invariant -/

/-- Contiguity: the entries of `L` (oldest first) occupy consecutive arena
blocks starting exactly at offset `a` and ending exactly at offset `b`. -/
def runTo : Nat → List HistEntry → Nat → Bool
  | a, [], b => a == b
  | a, e :: es, b => (e.off == a) && runTo (a + e.asize) es b

/-- Layout walk for an oldest-first entry list whose oldest entry sits at
offset `o`, from current position `a`: either the entries continue one
contiguous run ending exactly at the hint (below the arena end), or the
allocation cursor wrapped at some point: the remaining newer entries run
contiguously from offset 0 up to the hint, which must not go past `o`. -/
def wrapWalk (o : Nat) : Nat → List HistEntry → Nat → Bool
  | a, [], hint => (a == hint) && (hint ≤ HISTORY_SIZE)
  | a, e :: es, hint =>
    if e.off = a then wrapWalk o (a + e.asize) es hint
    else (a ≤ HISTORY_SIZE) && (e.off == 0) && runTo 0 (e :: es) hint && (hint ≤ o)

/-- Arena layout soundness of a history state. -/
def layoutOk (st : HistState) : Bool :=
  match st.entries.reverse with
  | [] => true
  | e :: es => wrapWalk e.off e.off (e :: es) st.hint

/-- Size sanity of the live entries: every allocated block is nonempty and at
most `size_req 127 = 140` bytes (commands are at most 127 bytes long). -/
def sizesOk (es : List HistEntry) : Bool :=
  es.all (fun e => decide (0 < e.asize) && decide (e.asize ≤ 140))

/-- Stored-bytes sanity: every entry stores NUL-free text of length
`cmd_len ≤ 127` followed by exactly one final NUL. -/
def storedOk (es : List HistEntry) : Bool :=
  es.all (fun e =>
    (e.stored.getLast? == some 0) && e.stored.dropLast.all (fun c => c != 0) &&
      (e.cmd_len + 1 == e.stored.length) && decide (e.cmd_len ≤ 127))

/-- The full history invariant. -/
def HistInv (st : HistState) : Prop :=
  sizesOk st.entries = true ∧ layoutOk st = true ∧ storedOk st.entries = true

theorem runTo_nil (a b : Nat) : runTo a [] b = (a == b) := rfl

theorem runTo_cons (a b : Nat) (e : HistEntry) (es : List HistEntry) :
    runTo a (e :: es) b = ((e.off == a) && runTo (a + e.asize) es b) := rfl

theorem wrapWalk_nil (o a h : Nat) :
    wrapWalk o a [] h = ((a == h) && decide (h ≤ HISTORY_SIZE)) := rfl

theorem wrapWalk_cons (o a h : Nat) (e : HistEntry) (es : List HistEntry) :
    wrapWalk o a (e :: es) h =
      if e.off = a then wrapWalk o (a + e.asize) es h
      else (decide (a ≤ HISTORY_SIZE) && (e.off == 0) && runTo 0 (e :: es) h &&
        decide (h ≤ o)) := rfl

theorem reverse_dropLast_eq_tail {α : Type} (l : List α) :
    l.dropLast.reverse = l.reverse.tail := by
  induction l using List.reverseRecOn with
  | nil => rfl
  | append_singleton l a _ => simp

theorem runTo_le (L : List HistEntry) : ∀ a b, runTo a L b = true → a ≤ b := by
  induction L with
  | nil =>
    intro a b h
    simp only [runTo_nil, beq_iff_eq] at h
    omega
  | cons e es ih =>
    intro a b h
    simp only [runTo_cons, Bool.and_eq_true, beq_iff_eq] at h
    have := ih (a + e.asize) b h.2
    omega

theorem runTo_bounds (L : List HistEntry) : ∀ a b, runTo a L b = true →
    ∀ e ∈ L, a ≤ e.off ∧ e.off + e.asize ≤ b := by
  induction L with
  | nil =>
    intro a b _ e he
    simp at he
  | cons f fs ih =>
    intro a b h e he
    simp only [runTo_cons, Bool.and_eq_true, beq_iff_eq] at h
    obtain ⟨hoff, hrest⟩ := h
    rcases List.mem_cons.mp he with rfl | he'
    · have := runTo_le fs (a + e.asize) b hrest
      omega
    · have := ih (a + f.asize) b hrest e he'
      omega

theorem runTo_append (L : List HistEntry) (x : HistEntry) : ∀ a b,
    runTo a (L ++ [x]) b = true ↔ (runTo a L x.off = true ∧ b = x.off + x.asize) := by
  induction L with
  | nil =>
    intro a b
    simp only [List.nil_append, runTo_cons, runTo_nil, Bool.and_eq_true, beq_iff_eq]
    omega
  | cons f fs ih =>
    intro a b
    simp only [List.cons_append, runTo_cons, Bool.and_eq_true, beq_iff_eq, ih]
    tauto

theorem wrapWalk_mono (M : List HistEntry) : ∀ o o' a h, o ≤ o' →
    wrapWalk o a M h = true → wrapWalk o' a M h = true := by
  induction M with
  | nil =>
    intro o o' a h _ hw
    exact hw
  | cons e es ih =>
    intro o o' a h hle hw
    rw [wrapWalk_cons] at hw ⊢
    by_cases hoff : e.off = a
    · rw [if_pos hoff] at hw ⊢
      exact ih o o' (a + e.asize) h hle hw
    · rw [if_neg hoff] at hw ⊢
      simp only [Bool.and_eq_true, decide_eq_true_eq] at hw ⊢
      exact ⟨hw.1, by omega⟩

theorem wrapWalk_of_runTo (M : List HistEntry) : ∀ o a h, runTo a M h = true →
    h ≤ HISTORY_SIZE → wrapWalk o a M h = true := by
  induction M with
  | nil =>
    intro o a h hr hle
    rw [wrapWalk_nil]
    simp only [runTo_nil] at hr
    simp [hr, hle]
  | cons e es ih =>
    intro o a h hr hle
    simp only [runTo_cons, Bool.and_eq_true, beq_iff_eq] at hr
    obtain ⟨hoff, hrest⟩ := hr
    rw [wrapWalk_cons, if_pos hoff]
    exact ih o (a + e.asize) h hrest hle

theorem wrapWalk_wrap_intro (HI : List HistEntry) : ∀ (LO : List HistEntry) (o a t h : Nat),
    0 < t → runTo a HI t = true → t ≤ HISTORY_SIZE → LO ≠ [] → runTo 0 LO h = true →
    h ≤ o → wrapWalk o a (HI ++ LO) h = true := by
  induction HI with
  | nil =>
    intro LO o a t h ht hr hle hne hlo hho
    simp only [runTo_nil, beq_iff_eq] at hr
    subst hr
    match LO, hne with
    | e :: es, _ =>
      have he0 : e.off = 0 := by
        have := (runTo_bounds (e :: es) 0 h hlo e (by simp)).1
        have h2 := runTo_bounds (e :: es) 0 h hlo e (by simp)
        simp only [runTo_cons, Bool.and_eq_true, beq_iff_eq] at hlo
        omega
      rw [List.nil_append, wrapWalk_cons, if_neg (by omega)]
      simp only [Bool.and_eq_true, decide_eq_true_eq, beq_iff_eq]
      exact ⟨⟨⟨by omega, he0⟩, hlo⟩, hho⟩
  | cons f HI' ih =>
    intro LO o a t h ht hr hle hne hlo hho
    simp only [runTo_cons, Bool.and_eq_true, beq_iff_eq] at hr
    obtain ⟨hoff, hrest⟩ := hr
    rw [List.cons_append, wrapWalk_cons, if_pos hoff]
    exact ih LO o (a + f.asize) t h ht hrest hle hne hlo hho

theorem wrapWalk_split (M : List HistEntry) : ∀ o a h, wrapWalk o a M h = true →
    (runTo a M h = true ∧ h ≤ HISTORY_SIZE) ∨
    (∃ HI LO t, M = HI ++ LO ∧ LO ≠ [] ∧ runTo a HI t = true ∧ t ≤ HISTORY_SIZE ∧
      runTo 0 LO h = true ∧ h ≤ o) := by
  induction M with
  | nil =>
    intro o a h hw
    rw [wrapWalk_nil] at hw
    simp only [Bool.and_eq_true, beq_iff_eq, decide_eq_true_eq] at hw
    left
    simp only [runTo_nil, beq_iff_eq]
    exact ⟨by omega, hw.2⟩
  | cons e es ih =>
    intro o a h hw
    rw [wrapWalk_cons] at hw
    by_cases hoff : e.off = a
    · rw [if_pos hoff] at hw
      rcases ih o (a + e.asize) h hw with ⟨h1, h2⟩ | ⟨HI, LO, t, hsplit, hne, hrh, hth, hrl, hho⟩
      · left
        refine ⟨?_, h2⟩
        simp only [runTo_cons, Bool.and_eq_true, beq_iff_eq]
        exact ⟨hoff, h1⟩
      · right
        refine ⟨e :: HI, LO, t, by rw [hsplit, List.cons_append], hne, ?_, hth, hrl, hho⟩
        simp only [runTo_cons, Bool.and_eq_true, beq_iff_eq]
        exact ⟨hoff, hrh⟩
    · rw [if_neg hoff] at hw
      simp only [Bool.and_eq_true, beq_iff_eq, decide_eq_true_eq] at hw
      obtain ⟨⟨⟨ha, hoff0⟩, hrun⟩, hho⟩ := hw
      right
      exact ⟨[], e :: es, a, rfl, by simp, by simp [runTo_nil], ha, hrun, hho⟩

theorem wrapWalk_shift (M' : List HistEntry) (f : HistEntry) : ∀ o a h,
    wrapWalk o a (f :: M') h = true → o ≤ a →
    wrapWalk f.off f.off (f :: M') h = true := by
  intro o a h hw hoa
  rw [wrapWalk_cons] at hw
  by_cases hoff : f.off = a
  · rw [if_pos hoff] at hw
    rw [wrapWalk_cons, if_pos rfl, hoff]
    exact wrapWalk_mono M' o a (a + f.asize) h hoa hw
  · rw [if_neg hoff] at hw
    simp only [Bool.and_eq_true, beq_iff_eq, decide_eq_true_eq] at hw
    obtain ⟨⟨⟨ha1024, hf0⟩, hrun⟩, hho⟩ := hw
    rw [hf0]
    exact wrapWalk_of_runTo (f :: M') 0 0 h hrun (by omega)

theorem getLast?_append_right {α : Type} (l1 l2 : List α) (h : l2 ≠ []) :
    (l1 ++ l2).getLast? = l2.getLast? := by
  rw [List.getLast?_append]
  cases h2 : l2.getLast? with
  | none => exact absurd (List.getLast?_eq_none_iff.mp h2) h
  | some a => rfl

theorem mem_of_getLast?_eq {α : Type} {l : List α} {a : α} (h : l.getLast? = some a) :
    a ∈ l := by
  obtain ⟨l', rfl⟩ := List.getLast?_eq_some_iff.mp h
  simp

theorem sizes_spec (es : List HistEntry)
    (hsz : sizesOk es = true) :
    ∀ e ∈ es, 0 < e.asize ∧ e.asize ≤ 140 := by
  intro e he
  simp only [sizesOk] at hsz
  rw [List.all_eq_true] at hsz
  have := hsz e he
  simpa using this

theorem layout_singleton (e : HistEntry) (hint : Nat)
    (hl : layoutOk { entries := [e], hint := hint } = true) :
    hint = e.off + e.asize ∧ hint ≤ HISTORY_SIZE := by
  simp only [layoutOk, List.reverse_cons, List.reverse_nil, List.nil_append] at hl
  rw [wrapWalk_cons, if_pos rfl, wrapWalk_nil] at hl
  simp only [Bool.and_eq_true, beq_iff_eq, decide_eq_true_eq] at hl
  exact ⟨hl.1.symm, hl.2⟩

theorem malloc_singleton_some (e : HistEntry) (hint n : Nat)
    (hl : layoutOk { entries := [e], hint := hint } = true)
    (hsz : e.asize ≤ 140) (hn : n ≤ 140) :
    ∃ off, history_malloc [e] hint n = some off := by
  obtain ⟨hh, hle⟩ := layout_singleton e hint hl
  simp only [history_malloc, List.getLastD_nil]
  rw [if_pos (le_refl e.off)]
  by_cases h1 : hint + n ≤ HISTORY_SIZE
  · rw [if_pos h1]
    exact ⟨hint, rfl⟩
  · rw [if_neg h1, if_pos (show n ≤ e.off by simp only [HISTORY_SIZE] at hle h1; omega)]
    exact ⟨0, rfl⟩

theorem malloc_success_spec (es : List HistEntry) (hint n off : Nat)
    (hl : layoutOk { entries := es, hint := hint } = true)
    (hsz : sizesOk es = true)
    (hm : history_malloc es hint n = some off) :
    (∀ e ∈ es, e.off + e.asize ≤ off ∨ off + n ≤ e.off) ∧
      (∀ x : HistEntry, x.off = off → x.asize = n →
        layoutOk { entries := x :: es, hint := off + n } = true) := by
  have hsz' := sizes_spec es hsz
  cases es with
  | nil =>
    simp only [history_malloc] at hm
    by_cases hle : n ≤ HISTORY_SIZE
    · rw [if_pos hle] at hm
      injection hm with hoff
      constructor
      · intro e he
        simp at he
      · intro x hx1 hx2
        simp only [layoutOk, List.reverse_cons, List.reverse_nil, List.nil_append]
        rw [wrapWalk_cons, if_pos rfl, wrapWalk_nil]
        simp only [Bool.and_eq_true, beq_iff_eq, decide_eq_true_eq]
        omega
    · rw [if_neg hle] at hm
      exact absurd hm (by simp)
  | cons newest rest =>
    obtain ⟨e0, M, hrev⟩ : ∃ e0 M, (newest :: rest).reverse = e0 :: M := by
      cases hr : (newest :: rest).reverse with
      | nil =>
        have := congrArg List.length hr
        simp at this
      | cons a b => exact ⟨a, b, rfl⟩
    have holdest : rest.getLastD newest = e0 := by
      have h1 : (newest :: rest).getLast? = some e0 := by
        rw [List.getLast?_eq_head?_reverse, hrev]
        rfl
      rw [List.getLast?_cons] at h1
      injection h1 with h1'
      rw [List.getLastD_eq_getLast? newest rest, h1']
    have hnewlast : ((newest :: rest).reverse).getLast? = some newest := by
      rw [List.getLast?_eq_head?_reverse, List.reverse_reverse]
      rfl
    have hmemL : ∀ e : HistEntry, e ∈ (newest :: rest) ↔ e ∈ e0 :: M := by
      intro e
      rw [← hrev, List.mem_reverse]
    have he0mem : e0 ∈ (newest :: rest) := (hmemL e0).mpr (by simp)
    simp only [layoutOk, hrev] at hl
    rcases wrapWalk_split (e0 :: M) e0.off e0.off hint hl with ⟨hrun, h1024⟩ |
      ⟨HI, LO, t, hsplit, hLOne, hrHI, ht1024, hrLO, hhint⟩
    · -- no wraparound: one contiguous run from the oldest entry up to the hint
      have hbounds := runTo_bounds (e0 :: M) e0.off hint hrun
      have hnb := hbounds newest ((hmemL newest).mp (by simp))
      have he0b := hbounds e0 (by simp)
      have he0sz := hsz' e0 he0mem
      simp only [history_malloc, holdest] at hm
      rw [if_pos hnb.1] at hm
      by_cases hfit : hint + n ≤ HISTORY_SIZE
      · rw [if_pos hfit] at hm
        injection hm with hoff
        constructor
        · intro e he
          left
          have := hbounds e ((hmemL e).mp he)
          omega
        · intro x hx1 hx2
          have hgoal : (x :: newest :: rest).reverse = e0 :: (M ++ [x]) := by
            rw [List.reverse_cons, hrev, List.cons_append]
          simp only [layoutOk, hgoal]
          apply wrapWalk_of_runTo
          · rw [show e0 :: (M ++ [x]) = (e0 :: M) ++ [x] by rw [List.cons_append]]
            rw [runTo_append]
            constructor
            · rw [hx1, ← hoff]
              exact hrun
            · omega
          · simp only [HISTORY_SIZE] at hfit ⊢
            omega
      · rw [if_neg hfit] at hm
        by_cases hfit2 : n ≤ e0.off
        · rw [if_pos hfit2] at hm
          injection hm with hoff
          constructor
          · intro e he
            right
            have := hbounds e ((hmemL e).mp he)
            omega
          · intro x hx1 hx2
            have hgoal : (x :: newest :: rest).reverse = (e0 :: M) ++ [x] := by
              rw [List.reverse_cons, hrev]
            have hgoal2 : (x :: newest :: rest).reverse = e0 :: (M ++ [x]) := by
              rw [hgoal, List.cons_append]
            simp only [layoutOk, hgoal2]
            rw [show e0 :: (M ++ [x]) = (e0 :: M) ++ [x] by rw [List.cons_append]]
            apply wrapWalk_wrap_intro (e0 :: M) [x] e0.off e0.off hint (off + n)
            · omega
            · exact hrun
            · exact h1024
            · simp
            · rw [runTo_cons, runTo_nil]
              simp only [Bool.and_eq_true, beq_iff_eq]
              omega
            · omega
        · rw [if_neg hfit2] at hm
          exact absurd hm (by simp)
    · -- wrapped layout: old entries high, newer entries from offset 0
      have hlastLO : LO.getLast? = some newest := by
        have h1 : ((newest :: rest).reverse).getLast? = LO.getLast? := by
          rw [hrev, hsplit]
          exact getLast?_append_right HI LO hLOne
        rw [← h1, hnewlast]
      have hnewLO : newest ∈ LO := mem_of_getLast?_eq hlastLO
      have hbLO := runTo_bounds LO 0 hint hrLO
      have hbHI := runTo_bounds HI e0.off t hrHI
      have hnew2 := hbLO newest hnewLO
      have hsznew := hsz' newest (by simp)
      have he0sz := hsz' e0 he0mem
      have hlt : ¬ ((rest.getLastD newest).off ≤ newest.off) := by
        rw [holdest]
        omega
      simp only [history_malloc] at hm
      rw [if_neg hlt] at hm
      by_cases hfit : hint + n ≤ (rest.getLastD newest).off
      · rw [if_pos hfit] at hm
        injection hm with hoff
        rw [holdest] at hfit
        constructor
        · intro e he
          have heL : e ∈ HI ++ LO := by
            rw [← hsplit]
            exact (hmemL e).mp he
          rcases List.mem_append.mp heL with hHI | hLO
          · right
            have := hbHI e hHI
            omega
          · left
            have := hbLO e hLO
            omega
        · intro x hx1 hx2
          cases HI with
          | nil =>
            -- impossible: the oldest entry would then lie in the low run, but
            -- that run ends at or below the oldest entry's own offset
            exfalso
            rw [List.nil_append] at hsplit
            have hmem : e0 ∈ LO := by
              rw [← hsplit]
              simp
            have := hbLO e0 hmem
            omega
          | cons f HI' =>
            have hf : f = e0 := by
              rw [List.cons_append] at hsplit
              have h1 := congrArg List.head? hsplit
              simp at h1
              exact h1.symm
            have hgoal : (x :: newest :: rest).reverse = e0 :: ((HI' ++ LO) ++ [x]) := by
              rw [List.reverse_cons, hrev, hsplit, hf, List.cons_append, List.cons_append]
            simp only [layoutOk, hgoal]
            rw [show e0 :: ((HI' ++ LO) ++ [x]) = (e0 :: HI') ++ (LO ++ [x]) by
              rw [List.cons_append, List.append_assoc]]
            apply wrapWalk_wrap_intro (e0 :: HI') (LO ++ [x]) e0.off e0.off t (off + n)
            · have := hbHI f (by simp)
              have := hsz' f (by rw [hf]; exact he0mem)
              omega
            · rw [hf] at hrHI
              exact hrHI
            · exact ht1024
            · simp
            · rw [runTo_append]
              constructor
              · rw [hx1, ← hoff]
                exact hrLO
              · omega
            · omega
      · rw [if_neg hfit] at hm
        exact absurd hm (by simp)

theorem all_dropLast (p : HistEntry → Bool) (l : List HistEntry) (h : l.all p = true) :
    l.dropLast.all p = true := by
  rw [List.all_eq_true] at h ⊢
  intro e he
  exact h e (List.dropLast_subset l he)

theorem layoutOk_dropLast (es : List HistEntry) (hint : Nat) (h2 : 2 ≤ es.length)
    (hl : layoutOk { entries := es, hint := hint } = true) :
    layoutOk { entries := es.dropLast, hint := hint } = true := by
  obtain ⟨e, f, L', hrev⟩ : ∃ e f L', es.reverse = e :: f :: L' := by
    cases hr : es.reverse with
    | nil =>
      have h0 : es.length = 0 := by
        rw [← List.length_reverse, hr]
        rfl
      omega
    | cons a tail =>
      cases tail with
      | nil =>
        have h0 : es.length = 1 := by
          rw [← List.length_reverse, hr]
          rfl
        omega
      | cons b l => exact ⟨a, b, l, rfl⟩
  have htail : es.dropLast.reverse = f :: L' := by
    rw [reverse_dropLast_eq_tail, hrev]
    rfl
  simp only [layoutOk, hrev] at hl
  simp only [layoutOk, htail]
  rw [wrapWalk_cons, if_pos rfl] at hl
  exact wrapWalk_shift L' f e.off (e.off + e.asize) hint hl (by omega)

theorem alloc_retry_ok (n : Nat) (hn1 : 0 < n) (hn : n ≤ 140) :
    ∀ (k : Nat) (st : HistState), st.entries.length ≤ k →
      layoutOk st = true → sizesOk st.entries = true →
      ∃ es' off, alloc_retry st n = .ok { entries := es', hint := off + n } off ∧
        (∀ e ∈ es', e ∈ st.entries) ∧
        (∀ e ∈ es', e.off + e.asize ≤ off ∨ off + n ≤ e.off) ∧
        (∀ x : HistEntry, x.off = off → x.asize = n →
          layoutOk { entries := x :: es', hint := off + n } = true) := by
  intro k
  induction k with
  | zero =>
    intro st hlen hl hsz
    obtain ⟨ents, hintv⟩ := st
    simp only at hlen hl hsz ⊢
    have hes : ents = [] := List.length_eq_zero.mp (by omega)
    subst hes
    have hm : history_malloc [] hintv n = some 0 := by
      simp only [history_malloc]
      rw [if_pos (by simp only [HISTORY_SIZE]; omega)]
    obtain ⟨hdisj, hlay⟩ := malloc_success_spec [] hintv n 0 hl hsz hm
    refine ⟨[], 0, ?_, fun e he => he, hdisj, hlay⟩
    rw [alloc_retry]
    simp only [hm]
  | succ k ih =>
    intro st hlen hl hsz
    obtain ⟨ents, hintv⟩ := st
    simp only at hlen hl hsz ⊢
    cases hm : history_malloc ents hintv n with
    | some off =>
      obtain ⟨hdisj, hlay⟩ := malloc_success_spec ents hintv n off hl hsz hm
      refine ⟨ents, off, ?_, fun e he => he, hdisj, hlay⟩
      rw [alloc_retry]
      simp only [hm]
    | none =>
      cases ents with
      | nil =>
        exfalso
        simp only [history_malloc] at hm
        rw [if_pos (by simp only [HISTORY_SIZE]; omega)] at hm
        exact absurd hm (by simp)
      | cons e tail =>
        cases tail with
        | nil =>
          exfalso
          have hsz' : e.asize ≤ 140 := by
            have := sizes_spec [e] hsz e (by simp)
            omega
          obtain ⟨off, hoff⟩ := malloc_singleton_some e hintv n hl hsz' hn
          rw [hoff] at hm
          exact absurd hm (by simp)
        | cons f rest =>
          have hlen2 : 2 ≤ (e :: f :: rest).length := by simp
          have hl2 : layoutOk
              { entries := (e :: f :: rest).dropLast, hint := hintv } = true :=
            layoutOk_dropLast (e :: f :: rest) hintv hlen2 hl
          have hsz2 : sizesOk ((e :: f :: rest).dropLast) = true := by
            simp only [sizesOk] at hsz ⊢
            exact all_dropLast _ (e :: f :: rest) hsz
          have hlen3 : ((e :: f :: rest).dropLast).length ≤ k := by
            rw [List.length_dropLast]
            simp only [List.length_cons] at hlen ⊢
            omega
          obtain ⟨es', off, heq, hmem, hdisj, hlay⟩ :=
            ih { entries := (e :: f :: rest).dropLast, hint := hintv } hlen3 hl2 hsz2
          refine ⟨es', off, ?_, ?_, hdisj, hlay⟩
          · rw [alloc_retry]
            simp only [hm]
            exact heq
          · intro x hx
            exact List.dropLast_subset (e :: f :: rest) (hmem x hx)

/-- Bounds on the rounded allocation request: for commands of at most 127
bytes the request is positive and at most 140 bytes. -/
theorem size_req_bounds (l : Nat) (hl : l ≤ 127) : 0 < size_req l ∧ size_req l ≤ 140 := by
  simp only [size_req, roundUp4, sizeofCmdHistory]
  split_ifs <;> omega

theorem takeWhile_append_nul (w : List Nat) (hw : ∀ c ∈ w, c ≠ 0) :
    (w ++ [0]).takeWhile (fun c => c ≠ 0) = w := by
  induction w with
  | nil => simp
  | cons c w' ih =>
    have hc : c ≠ 0 := hw c (by simp)
    rw [List.cons_append, List.takeWhile_cons, if_pos (decide_eq_true hc)]
    rw [ih (fun d hd => hw d (by simp [hd]))]

theorem takeWhile_eq_take_nul (l : List Nat) : ∀ m, m < l.length →
    (∀ c ∈ l.take m, c ≠ 0) → l.getD m 0 = 0 →
    l.takeWhile (fun c => c ≠ 0) = l.take m := by
  induction l with
  | nil =>
    intro m hm
    simp at hm
  | cons c l' ih =>
    intro m hm hfree hnul
    cases m with
    | zero =>
      simp only [List.getD] at hnul
      simp at hnul
      rw [List.takeWhile_cons]
      simp [hnul]
    | succ m' =>
      have hc : c ≠ 0 := hfree c (by simp)
      rw [List.takeWhile_cons, if_pos (decide_eq_true hc), List.take_succ_cons]
      rw [ih m' (by simpa using hm) (fun d hd => hfree d (by simp [hd])) (by simpa using hnul)]

theorem stored_spec (es : List HistEntry)
    (h : storedOk es = true) :
    ∀ e ∈ es, e.stored = e.stored.dropLast ++ [0] ∧ (∀ c ∈ e.stored.dropLast, c ≠ 0) ∧
      e.cmd_len + 1 = e.stored.length ∧ e.cmd_len ≤ 127 := by
  intro e he
  simp only [storedOk] at h
  rw [List.all_eq_true] at h
  have := h e he
  simp only [Bool.and_eq_true, beq_iff_eq, decide_eq_true_eq, List.all_eq_true,
    bne_iff_ne] at this
  obtain ⟨⟨⟨hlast, hfree⟩, hlen⟩, hle⟩ := this
  exact ⟨(List.dropLast_append_getLast? 0 hlast).symm, hfree, hlen, hle⟩

/-- Well-formedness of the live command buffer as maintained by the line
editor: 128-byte backing array, text of at most 127 NUL-free bytes, and the
NUL terminator right after the text. -/
def BufWf (buf : TxtBuf) : Prop :=
  buf.data.length = CMD_BUFFER_SIZE ∧ buf.len ≤ 127 ∧
    (∀ c ∈ buf.data.take buf.len, c ≠ 0) ∧ buf.data.getD buf.len 0 = 0

theorem cons_all (p : HistEntry → Bool) (x : HistEntry) (es' origEs : List HistEntry)
    (hx : p x = true) (hall : origEs.all p = true) (hmem : ∀ e ∈ es', e ∈ origEs) :
    (x :: es').all p = true := by
  rw [List.all_eq_true] at hall ⊢
  intro e he
  rcases List.mem_cons.mp he with rfl | he'
  · exact hx
  · exact hall e (hmem e he')

theorem history_input_spec (st : HistState) (buf : TxtBuf)
    (hInv : HistInv st) (hwf : BufWf buf) :
    ∃ st', history_input st buf = some st' ∧ HistInv st' ∧
      ∃ eN, st'.entries.head? = some eN ∧ eN.cmd_len = buf.len ∧
        eN.stored = buf.data.take buf.len ++ [0] := by
  obtain ⟨hsz, hl, hstored⟩ := hInv
  obtain ⟨hdlen, hlen, hfree, hterm⟩ := hwf
  have hlenlt : buf.len < buf.data.length := by
    rw [hdlen]
    simp only [CMD_BUFFER_SIZE]
    omega
  have htake : buf.data.takeWhile (fun c => c ≠ 0) = buf.data.take buf.len :=
    takeWhile_eq_take_nul buf.data buf.len hlenlt hfree hterm
  have hlentake : (buf.data.take buf.len).length = buf.len := by
    rw [List.length_take]
    omega
  obtain ⟨hn1, hn2⟩ := size_req_bounds buf.len hlen
  -- the stored-block well-formedness of the would-be new entry
  have hnewp : ∀ off : Nat,
      storedOk [⟨off, size_req buf.len, buf.len, buf.data.take buf.len ++ [0]⟩] = true := by
    intro off
    simp only [storedOk, List.all_eq_true]
    intro e he
    simp only [List.mem_singleton] at he
    subst he
    simp only [Bool.and_eq_true, beq_iff_eq, decide_eq_true_eq]
    refine ⟨⟨⟨List.getLast?_concat _, ?_⟩, ?_⟩, hlen⟩
    · rw [List.dropLast_concat, List.all_eq_true]
      intro c hc
      simpa using hfree c hc
    · rw [List.length_append, hlentake]
      rfl
  cases hes : st.entries with
  | nil =>
    obtain ⟨es', off, heq, hmem, hdisj, hlay⟩ :=
      alloc_retry_ok (size_req buf.len) hn1 hn2 st.entries.length st (le_refl _) hl hsz
    refine ⟨⟨(⟨off, size_req buf.len, buf.len,
      buf.data.take buf.len ++ [0]⟩ : HistEntry) :: es', off + size_req buf.len⟩,
      ?_, ?_, ?_⟩
    · simp only [history_input, hes]
      rw [heq]
      rfl
    · refine ⟨?_, ?_, ?_⟩
      · refine cons_all _ _ es' st.entries ?_ (by simpa [sizesOk] using hsz) hmem
        simp only [Bool.and_eq_true, decide_eq_true_eq]
        exact ⟨hn1, hn2⟩
      · exact hlay _ rfl rfl
      · refine cons_all _ _ es' st.entries ?_ (by simpa [storedOk] using hstored) hmem
        have := hnewp off
        simp only [storedOk, List.all_eq_true] at this
        exact this _ (by simp)
    · exact ⟨_, rfl, rfl, rfl⟩
  | cons newest tailEs =>
    by_cases hrep : strEqC newest.stored buf.data = true
    · -- immediate repeat: history_input returns the state unchanged, and the
      -- newest entry already stores exactly the submitted bytes
      have hrepB : strEqC newest.stored buf.data = true := hrep
      obtain ⟨hsplit, hfree', hlen', hle'⟩ :=
        stored_spec st.entries hstored newest (by rw [hes]; simp)
      simp only [strEqC, beq_iff_eq] at hrep
      have hdl : newest.stored.dropLast = buf.data.take buf.len := by
        have h1 : (newest.stored.dropLast ++ [0]).takeWhile (fun c => c ≠ 0) =
            newest.stored.dropLast := takeWhile_append_nul _ hfree'
        rw [← hsplit] at h1
        rw [h1, htake] at hrep
        exact hrep
      refine ⟨st, ?_, ⟨hsz, hl, hstored⟩, newest, ?_, ?_, ?_⟩
      · simp only [history_input, hes, hrepB]
        simp
      · rw [hes]
        rfl
      · have : newest.stored.length = buf.len + 1 := by
          rw [hsplit, List.length_append, hdl, hlentake]
          rfl
        omega
      · rw [hsplit, hdl]
    · have hrep' : strEqC newest.stored buf.data = false := by
        simpa using hrep
      obtain ⟨es', off, heq, hmem, hdisj, hlay⟩ :=
        alloc_retry_ok (size_req buf.len) hn1 hn2 st.entries.length st (le_refl _) hl hsz
      refine ⟨⟨(⟨off, size_req buf.len, buf.len,
        buf.data.take buf.len ++ [0]⟩ : HistEntry) :: es', off + size_req buf.len⟩,
        ?_, ?_, ?_⟩
      · simp only [history_input, hes, hrep']
        rw [heq]
        rfl
      · refine ⟨?_, ?_, ?_⟩
        · refine cons_all _ _ es' st.entries ?_ (by simpa [sizesOk] using hsz) hmem
          simp only [Bool.and_eq_true, decide_eq_true_eq]
          exact ⟨hn1, hn2⟩
        · exact hlay _ rfl rfl
        · refine cons_all _ _ es' st.entries ?_ (by simpa [storedOk] using hstored) hmem
          have := hnewp off
          simp only [storedOk, List.all_eq_true] at this
          exact this _ (by simp)
      · exact ⟨_, rfl, rfl, rfl⟩

/-- C1: under the history invariant, recording a submitted non-blank command
of at most 127 NUL-free bytes neither crashes nor leaves the history
inconsistent: `history_input` always returns a state (the eviction-retry loop
terminates, no null dereference, no partially linked entry) that again
satisfies the invariant and whose newest entry stores exactly the submitted
bytes.  The silently-dropped case of the claim is vacuously covered: under
the invariant the retry loop always reaches a successful allocation before
the arena can become empty. -/
theorem C1_history_record_no_crash (st : HistState) (buf : TxtBuf)
    (hInv : HistInv st) (hwf : BufWf buf) :
    ∃ st', history_input st buf = some st' ∧ HistInv st' ∧
      ∃ eN, st'.entries.head? = some eN ∧
        eN.stored = buf.data.take buf.len ++ [0] := by
  obtain ⟨st', h1, h2, eN, h3, _, h5⟩ := history_input_spec st buf hInv hwf
  exact ⟨st', h1, h2, eN, h3, h5⟩

/-- The empty history state (program start). -/
def histState0 : HistState := { entries := [], hint := 0 }

/-- A command buffer holding the single byte 'a' with the cursor at the end. -/
def c1buf : TxtBuf :=
  { data := 97 :: List.replicate 127 0
    size := CMD_BUFFER_SIZE
    len := 1
    cursorOffset := 0 }

/-- Witness for C1: recording "a" into the empty history succeeds. -/
theorem C1_history_record_witness :
    HistInv histState0 ∧ BufWf c1buf ∧
      ∃ st', history_input histState0 c1buf = some st' ∧ HistInv st' ∧
        ∃ eN, st'.entries.head? = some eN ∧
          eN.stored = c1buf.data.take c1buf.len ++ [0] :=
  ⟨⟨by decide, by decide, by decide⟩, ⟨by decide, by decide, by decide, by decide⟩,
    C1_history_record_no_crash histState0 c1buf
      ⟨by decide, by decide, by decide⟩ ⟨by decide, by decide, by decide, by decide⟩⟩

/-- C2: characterization of `history_malloc` under the arena-layout
invariant.  With no live entry it succeeds iff the request fits in the arena
and returns the arena start; when the newest entry's address is at or above
the oldest's, it returns the block at the hint if that fits before the arena
end, otherwise the arena start if the request fits below the oldest entry,
otherwise fails; when the newest entry's address is below the oldest's, it
succeeds iff the block at the hint ends at or before the oldest entry; and a
granted block never overlaps any live entry. -/
theorem C2_history_malloc_characterization (st : HistState) (n : Nat)
    (hsz : sizesOk st.entries = true) (hl : layoutOk st = true) :
    (st.entries = [] → history_malloc st.entries st.hint n =
      (if n ≤ HISTORY_SIZE then some 0 else none)) ∧
    (∀ newest rest, st.entries = newest :: rest →
      history_malloc st.entries st.hint n =
        (if (rest.getLastD newest).off ≤ newest.off then
          if st.hint + n ≤ HISTORY_SIZE then some st.hint
          else if n ≤ (rest.getLastD newest).off then some 0
          else none
        else if st.hint + n ≤ (rest.getLastD newest).off then some st.hint else none)) ∧
    (∀ off, history_malloc st.entries st.hint n = some off →
      ∀ e ∈ st.entries, e.off + e.asize ≤ off ∨ off + n ≤ e.off) := by
  refine ⟨?_, ?_, ?_⟩
  · intro hes
    rw [hes]
    rfl
  · intro newest rest hes
    rw [hes]
    rfl
  · intro off hm
    have hl' : layoutOk { entries := st.entries, hint := st.hint } = true := hl
    exact (malloc_success_spec st.entries st.hint n off hl' hsz hm).1

/-- A one-entry history occupying the first 16 arena bytes. -/
def c2entry : HistEntry := { off := 0, asize := 16, cmd_len := 1, stored := [97, 0] }

/-- Witness for C2: with one 16-byte entry at offset 0 and hint 16, a 16-byte
request is served at the hint and does not overlap the live entry. -/
theorem C2_history_malloc_witness :
    history_malloc [c2entry] 16 16 = some 16 ∧
      (c2entry.off + c2entry.asize ≤ 16 ∨ 16 + 16 ≤ c2entry.off) := by
  have h := C2_history_malloc_characterization
    { entries := [c2entry], hint := 16 } 16 (by decide) (by decide)
  have h2 := h.2.1 c2entry [] rfl
  have hval : history_malloc [c2entry] 16 16 = some 16 := by
    rw [h2]
    decide
  exact ⟨hval, h.2.2 16 hval c2entry (by simp)⟩

theorem memcpyBuf_take (dst src : List Nat) (nn m : Nat) (hm : m ≤ nn)
    (hmd : m ≤ dst.length) (hms : m ≤ src.length) :
    (memcpyBuf dst src nn).take m = src.take m := by
  apply List.ext_getElem
  · simp only [List.length_take, memcpyBuf, List.length_map, List.length_range]
    omega
  · intro i h1 h2
    simp only [List.length_take, memcpyBuf, List.length_map, List.length_range] at h1 h2
    rw [List.getElem_take, List.getElem_take]
    simp only [memcpyBuf, List.getElem_map, List.getElem_range]
    rw [if_pos (by omega)]
    exact List.getD_eq_getElem src 0 (by omega)

/-- C10: a stored history entry records `cmd_len` equal to the submitted
length, followed by exactly the submitted bytes and a terminating NUL, and
`history_display` of that entry copies exactly the submitted bytes back into
the command buffer, setting its length to `cmd_len`. -/
theorem C10_history_entry_roundtrip (st : HistState) (buf dbuf : TxtBuf)
    (hInv : HistInv st) (hwf : BufWf buf) (hdb : dbuf.data.length = CMD_BUFFER_SIZE) :
    ∃ st' eN, history_input st buf = some st' ∧ st'.entries.head? = some eN ∧
      eN.cmd_len = buf.len ∧ eN.stored = buf.data.take buf.len ++ [0] ∧
      (history_display (some eN) dbuf).len = buf.len ∧
      (history_display (some eN) dbuf).data.take buf.len = buf.data.take buf.len := by
  obtain ⟨st', h1, _, eN, h3, h4, h5⟩ := history_input_spec st buf hInv hwf
  obtain ⟨hdlen, hlen, _, _⟩ := hwf
  have hlentake : (buf.data.take buf.len).length = buf.len := by
    rw [List.length_take]
    rw [hdlen]
    simp only [CMD_BUFFER_SIZE]
    omega
  refine ⟨st', eN, h1, h3, h4, h5, ?_, ?_⟩
  · simp only [history_display]
    rw [h4]
  · simp only [history_display, reset_cmdBuffer]
    rw [memcpyBuf_take _ _ _ _ (by omega) ?_ ?_]
    · rw [h5]
      exact List.take_left' hlentake
    · rw [List.length_set, hdb]
      simp only [CMD_BUFFER_SIZE]
      omega
    · rw [h5, List.length_append, hlentake]
      omega
  -- note: `history_display` sets `len := eN.cmd_len`, rewritten to `buf.len` above

/-- Witness for C10: storing "a" from the empty history and re-displaying it
restores the buffer text. -/
theorem C10_history_entry_roundtrip_witness :
    ∃ st' eN, history_input histState0 c1buf = some st' ∧
      st'.entries.head? = some eN ∧ eN.cmd_len = c1buf.len ∧
      eN.stored = c1buf.data.take c1buf.len ++ [0] ∧
      (history_display (some eN) cmdBuffer0).len = c1buf.len ∧
      (history_display (some eN) cmdBuffer0).data.take c1buf.len =
        c1buf.data.take c1buf.len :=
  C10_history_entry_roundtrip histState0 c1buf cmdBuffer0
    ⟨by decide, by decide, by decide⟩ ⟨by decide, by decide, by decide, by decide⟩
    (by decide)

/-! ### The cli_process state machine (mcli.c lines 134-296)

`current_history_cmd` is modelled as an optional index into the newest-first
entry list: `some 0` is `newest_cmd`, `->next` (older) is index + 1, `->prev`
(newer) is index - 1 (NULL at index 0). -/

/-- Terminal output actions, to the granularity the claims need. -/
inductive OutEv where
  | newline                      -- print_newline()
  | prompt                       -- print_prompt()
  | clearLine                    -- the clear-line escape sequence
  | escInsert                    -- esc_seq_insert_char
  | escBackspace                 -- esc_seq_backspace
  | cursorRight
  | cursorLeft
  | echo (c : Nat)               -- putchar_ of an inserted character
  | text (s : List Nat)          -- puts_ of a recalled command
  | dispatch (r : ParseResult)   -- the outcome of parse_command
deriving DecidableEq

/-- The full mutable state of cli_process: the two previously processed
bytes, the command buffer, the history store and the recall cursor. -/
structure CliState where
  prev0 : Nat
  prev1 : Nat
  buf : TxtBuf
  hist : HistState
  cur : Option Nat
deriving DecidableEq

/-- The initial state of the interpreter. -/
def cliState0 : CliState :=
  { prev0 := 0, prev1 := 0, buf := cmdBuffer0, hist := histState0, cur := none }

/-- `handle_escape_char` from mcli.c: 'A'/'B' move the recall cursor and
re-render through `history_display`; 'C'/'D' move the cursor within the
line; anything else is ignored. -/
def histEntryAt (es : List HistEntry) : Option Nat → Option HistEntry
  | none => none
  | some i => es[i]?

/-- `handle_escape_char` from mcli.c; the switch cases are 'A' = 65,
'B' = 66, 'C' = 67, 'D' = 68. -/
def handle_escape_char (st : CliState) (c : Nat) : CliState × List OutEv :=
  match c with
  | 65 =>
    let cur' :=
      match st.cur with
      | none => if st.hist.entries.isEmpty then none else some 0
      | some i => if i + 1 < st.hist.entries.length then some (i + 1) else some i
    let ent := histEntryAt st.hist.entries cur'
    ({ st with cur := cur', buf := history_display ent st.buf },
      [.clearLine, .prompt] ++ (match ent with | none => [] | some e => [.text e.stored]))
  | 66 =>
    let cur' :=
      match st.cur with
      | none => none
      | some i => if i = 0 then none else some (i - 1)
    let ent := histEntryAt st.hist.entries cur'
    ({ st with cur := cur', buf := history_display ent st.buf },
      [.clearLine, .prompt] ++ (match ent with | none => [] | some e => [.text e.stored]))
  | 67 =>
    if 0 < st.buf.cursorOffset then
      ({ st with buf := { st.buf with cursorOffset := st.buf.cursorOffset - 1 } },
        [.cursorRight])
    else (st, [])
  | 68 =>
    if st.buf.cursorOffset < st.buf.len then
      ({ st with buf := { st.buf with cursorOffset := st.buf.cursorOffset + 1 } },
        [.cursorLeft])
    else (st, [])
  | _ => (st, [])

/-- `handle_printable_char` at the machine level: buffer mutation as in
`handle_printable_char`, plus the echo events. -/
def handle_printable_ev (st : CliState) (c : Nat) : CliState × List OutEv :=
  if CMD_BUFFER_SIZE - 1 ≤ st.buf.len then (st, [])
  else
    ({ st with buf := handle_printable_char st.buf c },
      (if 0 < st.buf.cursorOffset then [OutEv.escInsert] else []) ++ [OutEv.echo c])

/-- `handle_control_char` from mcli.c at the machine level.  The returned
Bool records whether this byte terminated the line (the '\r' / lone '\n'
branch ran); `none` models the null dereference reachable through
`history_input`'s eviction loop. -/
def handle_control_char (st : CliState) (c : Nat) : Option CliState × List OutEv × Bool :=
  if c = 10 ∧ st.prev0 = 13 then (some st, [], false)
  else if c = 10 ∨ c = 13 then
    if isBlank st.buf then
      (some { st with buf := reset_cmdBuffer st.buf }, [.newline, .prompt], true)
    else
      match history_input st.hist st.buf with
      | none => (none, [.newline], true)
      | some h' =>
        let pr := parse_command st.buf.data
        (some { st with
                buf := reset_cmdBuffer { st.buf with data := pr.2 },
                hist := h',
                cur := none },
          [.newline, .dispatch pr.1, .prompt], true)
  else if c = 127 ∨ c = 8 then
    (some { st with buf := backspaceEdit st.buf }, [.escBackspace], false)
  else (some st, [], false)

/-- One iteration of the cli_process while loop on byte `c`: route the byte
as in `classifyByte`, then slide the previous-byte window. -/
def processByte (st : CliState) (c : Nat) : Option CliState × List OutEv × Bool :=
  let r : Option CliState × List OutEv × Bool :=
    if st.prev0 = 27 ∧ c = 91 then (some st, [], false)
    else if st.prev0 = 91 ∧ st.prev1 = 27 then
      let he := handle_escape_char st c
      (some he.1, he.2, false)
    else if isPrintableChar c then
      let hp := handle_printable_ev st c
      (some hp.1, hp.2, false)
    else handle_control_char st c
  match r with
  | (none, evs, b) => (none, evs, b)
  | (some st', evs, b) => (some { st' with prev1 := st.prev0, prev0 := c }, evs, b)

/-- Process a byte stream in order; `none` when a step crashes. -/
def runBytes : CliState → List Nat → Option CliState
  | st, [] => some st
  | st, c :: cs =>
    match processByte st c with
    | (none, _, _) => none
    | (some st', _, _) => runBytes st' cs

/-- The per-byte line-termination flags of a stream (cut short at a crash). -/
def termFlags : CliState → List Nat → List Bool
  | _, [] => []
  | st, c :: cs =>
    match processByte st c with
    | (none, _, b) => [b]
    | (some st', _, b) => b :: termFlags st' cs

/-- C7 counterexample: in the stream ESC, '[', LF the final LF follows a
processed byte '[' (not CR), yet no byte of the stream terminates a line:
the LF is consumed as an escape-code byte.  The claim as stated requires
that LF to terminate the line exactly once. -/
theorem C7_crlf_counterexample :
    (runBytes cliState0 [27, 91]).map
        (fun st2 => (st2.prev0, (processByte st2 10).2.2)) = some (91, false) ∧
      termFlags cliState0 [27, 91, 10] = [false, false, false] := by
  constructor
  · rfl
  · rfl

/-- C7 amended: a '\r' byte, or a '\n' byte whose previously processed byte
was not '\r', terminates the line exactly once, provided the byte is not
consumed as an escape code (the two previously processed bytes being ESC
then open bracket).  A newline is emitted and the prompt re-rendered; if the
buffer is non-blank it is recorded to history, the recall cursor cleared and
the line dispatched; the text buffer is reset.  A '\n' immediately following
a processed '\r' is swallowed: no termination, only the previous-byte window
moves. -/
theorem C7_line_termination_amended (st : CliState) (c : Nat)
    (hwf : HistInv st.hist) (hbwf : BufWf st.buf)
    (hterm : c = 13 ∨ (c = 10 ∧ st.prev0 ≠ 13))
    (hesc : ¬(st.prev0 = 91 ∧ st.prev1 = 27)) :
    (processByte st c).2.2 = true ∧
      OutEv.newline ∈ (processByte st c).2.1 ∧
      OutEv.prompt ∈ (processByte st c).2.1 ∧
      (∃ st', (processByte st c).1 = some st' ∧
        st'.buf.len = 0 ∧ st'.buf.cursorOffset = 0 ∧
        (isBlank st.buf = false →
          history_input st.hist st.buf = some st'.hist ∧ st'.cur = none ∧
          OutEv.dispatch (parse_command st.buf.data).1 ∈ (processByte st c).2.1) ∧
        (isBlank st.buf = true → st'.hist = st.hist ∧ st'.cur = st.cur)) ∧
      (∀ st2 : CliState, st2.prev0 = 13 →
        (processByte st2 10).2.2 = false ∧
        (processByte st2 10).1 = some { st2 with prev1 := st2.prev0, prev0 := 10 }) := by
  have hc1 : ¬(st.prev0 = 27 ∧ c = 91) := by
    rcases hterm with rfl | ⟨rfl, _⟩ <;> simp
  have hcp : isPrintableChar c = false := by
    rcases hterm with rfl | ⟨rfl, _⟩ <;> decide
  have hns : ¬(c = 10 ∧ st.prev0 = 13) := by
    rcases hterm with rfl | ⟨rfl, h⟩
    · simp
    · simpa using h
  have hor : c = 10 ∨ c = 13 := by
    rcases hterm with rfl | ⟨rfl, _⟩
    · right
      rfl
    · left
      rfl
  have hswallow : ∀ st2 : CliState, st2.prev0 = 13 →
      (processByte st2 10).2.2 = false ∧
      (processByte st2 10).1 = some { st2 with prev1 := st2.prev0, prev0 := 10 } := by
    intro st2 h13
    have hp10 : isPrintableChar 10 = false := by decide
    have hval2 : processByte st2 10 =
        (some { st2 with prev1 := st2.prev0, prev0 := 10 }, [], false) := by
      simp only [processByte, handle_control_char, h13, hp10]
      simp
    rw [hval2]
    exact ⟨rfl, rfl⟩
  cases hbl : isBlank st.buf with
  | true =>
    have hval : processByte st c =
        (some { st with buf := reset_cmdBuffer st.buf, prev1 := st.prev0, prev0 := c },
          [.newline, .prompt], true) := by
      simp only [processByte, handle_control_char, if_neg hc1, if_neg hesc, hcp,
        Bool.false_eq_true, if_false, if_neg hns, if_pos hor, hbl, if_true]
    rw [hval]
    refine ⟨rfl, by simp, by simp, ⟨_, rfl, rfl, rfl, ?_, ?_⟩, hswallow⟩
    · intro hcontra
      simp [hbl] at hcontra
    · intro _
      exact ⟨rfl, rfl⟩
  | false =>
    obtain ⟨h', hh, hInv', _⟩ := history_input_spec st.hist st.buf hwf hbwf
    have hval : processByte st c =
        (some { st with
                buf := reset_cmdBuffer { st.buf with data := (parse_command st.buf.data).2 },
                hist := h',
                cur := none,
                prev1 := st.prev0,
                prev0 := c },
          [.newline, .dispatch (parse_command st.buf.data).1, .prompt], true) := by
      simp only [processByte, handle_control_char, if_neg hc1, if_neg hesc, hcp,
        Bool.false_eq_true, if_false, if_neg hns, if_pos hor, hbl, hh]
    rw [hval]
    refine ⟨rfl, by simp, by simp, ⟨_, rfl, rfl, rfl, ?_, ?_⟩, hswallow⟩
    · intro _
      exact ⟨by rw [hh], rfl, by simp⟩
    · intro hcontra
      simp [hbl] at hcontra

/-- A reachable state about to submit the non-blank line "a". -/
def c7state : CliState :=
  { prev0 := 97, prev1 := 0, buf := c1buf, hist := histState0, cur := none }

/-- Witness for C7 amended: submitting "a" with a '\r' byte terminates the
line once, emits newline and prompt. -/
theorem C7_line_termination_witness :
    (processByte c7state 13).2.2 = true ∧
      OutEv.newline ∈ (processByte c7state 13).2.1 ∧
      OutEv.prompt ∈ (processByte c7state 13).2.1 := by
  have h := C7_line_termination_amended c7state 13
    ⟨by decide, by decide, by decide⟩ ⟨by decide, by decide, by decide, by decide⟩
    (Or.inl rfl) (by decide)
  exact ⟨h.1, h.2.1, h.2.2.1⟩

/-! ### History recall traversal (claim C6) -/

/-- The state after one cursor-up key (the escape code 'A'). -/
def pressUp (st : CliState) : CliState := (handle_escape_char st 65).1

/-- The state after one cursor-down key (the escape code 'B'). -/
def pressDown (st : CliState) : CliState := (handle_escape_char st 66).1

/-- Iterate a key press `k` times. -/
def pressIter (f : CliState → CliState) : CliState → Nat → CliState
  | st, 0 => st
  | st, k + 1 => pressIter f (f st) k

/-- The text shown on the command line. -/
def bufText (st : CliState) : List Nat := st.buf.data.take st.buf.len

/-- The sequence of command-line contents displayed after each of `k`
presses. -/
def pressLog (f : CliState → CliState) : CliState → Nat → List (List Nat)
  | _, 0 => []
  | st, k + 1 => bufText (f st) :: pressLog f (f st) k

/-- The text bytes of a history entry. -/
def textOf (e : HistEntry) : List Nat := e.stored.take e.cmd_len

theorem memcpyBuf_length (dst src : List Nat) (n : Nat) :
    (memcpyBuf dst src n).length = dst.length := by
  simp [memcpyBuf]

theorem history_display_some (e : HistEntry) (b : TxtBuf) (hb : b.data.length = 128)
    (hwf1 : e.cmd_len + 1 = e.stored.length) (hwf2 : e.cmd_len + 1 ≤ 128) :
    (history_display (some e) b).len = e.cmd_len ∧
    (history_display (some e) b).data.take e.cmd_len = textOf e ∧
    (history_display (some e) b).data.length = 128 ∧
    (history_display (some e) b).cursorOffset = 0 := by
  refine ⟨rfl, ?_, ?_, rfl⟩
  · simp only [history_display, reset_cmdBuffer, textOf]
    exact memcpyBuf_take _ _ _ _ (by omega) (by rw [List.length_set, hb]; omega)
      (by omega)
  · simp only [history_display, reset_cmdBuffer]
    rw [memcpyBuf_length, List.length_set, hb]

theorem history_display_none (b : TxtBuf) (hb : b.data.length = 128) :
    (history_display none b).len = 0 ∧ (history_display none b).cursorOffset = 0 ∧
    (history_display none b).data.length = 128 ∧ bufText ⟨0, 0, history_display none b,
      histState0, none⟩ = [] := by
  refine ⟨rfl, rfl, ?_, rfl⟩
  simp only [history_display, reset_cmdBuffer]
  rw [List.length_set, hb]

theorem pressUp_step (st : CliState) (i : Nat) (hcur : st.cur = some i)
    (hlt : i + 1 < st.hist.entries.length) :
    pressUp st = { st with
      cur := some (i + 1),
      buf := history_display st.hist.entries[i + 1]? st.buf } := by
  simp only [pressUp, handle_escape_char, hcur, if_pos hlt, histEntryAt]

theorem pressUp_start (st : CliState) (hcur : st.cur = none)
    (hne : st.hist.entries ≠ []) :
    pressUp st = { st with
      cur := some 0,
      buf := history_display st.hist.entries[0]? st.buf } := by
  have hie : st.hist.entries.isEmpty = false := by
    cases h : st.hist.entries with
    | nil => exact absurd h hne
    | cons a l => rfl
  simp only [pressUp, handle_escape_char, hcur, hie, Bool.false_eq_true, if_false,
    histEntryAt]

theorem pressDown_step (st : CliState) (j : Nat) (hcur : st.cur = some (j + 1)) :
    pressDown st = { st with
      cur := some j,
      buf := history_display st.hist.entries[j]? st.buf } := by
  simp only [pressDown, handle_escape_char, hcur, histEntryAt]
  norm_num

theorem pressDown_last (st : CliState) (hcur : st.cur = some 0) :
    pressDown st = { st with cur := none, buf := history_display none st.buf } := by
  simp only [pressDown, handle_escape_char, hcur, histEntryAt]
  norm_num

/-- Default entry for `List.getD` on history lists. -/
def eDflt : HistEntry := ⟨0, 0, 0, []⟩

theorem getElem?_eq_some_getD (l : List HistEntry) (i : Nat) (h : i < l.length) :
    l[i]? = some (l.getD i eDflt) := by
  rw [List.getElem?_eq_getElem h, List.getD_eq_getElem l eDflt h]

theorem getD_mem (l : List HistEntry) (i : Nat) (h : i < l.length) :
    l.getD i eDflt ∈ l := by
  rw [List.getD_eq_getElem l eDflt h]
  exact List.getElem_mem _

/-- Texts displayed by `m` consecutive cursor-up presses starting with the
recall cursor at index `i`. -/
def upLogSpec (es : List HistEntry) : Nat → Nat → List (List Nat)
  | _, 0 => []
  | i, m + 1 => textOf (es.getD (i + 1) eDflt) :: upLogSpec es (i + 1) m

/-- Texts displayed by `j + 1` consecutive cursor-down presses starting with
the recall cursor at index `j` (ending on the empty live line). -/
def downLogSpec (es : List HistEntry) : Nat → List (List Nat)
  | 0 => [[]]
  | j + 1 => textOf (es.getD j eDflt) :: downLogSpec es j

theorem upLogSpec_eq (es : List HistEntry) : ∀ (m i : Nat), i + 1 + m ≤ es.length →
    upLogSpec es i m = ((es.drop (i + 1)).take m).map textOf := by
  intro m
  induction m with
  | zero =>
    intro i _
    simp [upLogSpec]
  | succ m ih =>
    intro i h
    have hdrop : es.drop (i + 1) = es.getD (i + 1) eDflt :: es.drop (i + 1 + 1) := by
      rw [List.getD_eq_getElem es eDflt (by omega)]
      exact List.drop_eq_getElem_cons (by omega)
    rw [upLogSpec, hdrop, List.take_succ_cons, List.map_cons, ih (i + 1) (by omega)]

theorem downLogSpec_eq (es : List HistEntry) : ∀ j, j < es.length →
    downLogSpec es j = ((es.take j).reverse).map textOf ++ [[]] := by
  intro j
  induction j with
  | zero =>
    intro _
    simp [downLogSpec]
  | succ j ih =>
    intro h
    have htake : es.take (j + 1) = es.take j ++ [es.getD j eDflt] := by
      rw [List.getD_eq_getElem es eDflt (by omega), List.take_succ,
        List.getElem?_eq_getElem (by omega)]
      rfl
    rw [downLogSpec, ih (by omega), htake, List.reverse_append]
    simp

theorem up_run (es : List HistEntry)
    (hwfe : ∀ e ∈ es, e.cmd_len + 1 = e.stored.length ∧ e.cmd_len + 1 ≤ 128) :
    ∀ (m : Nat) (st : CliState) (i : Nat), st.hist.entries = es → st.cur = some i →
      i + 1 + m ≤ es.length → st.buf.data.length = 128 →
      pressLog pressUp st m = upLogSpec es i m ∧
      (pressIter pressUp st m).cur = some (i + m) ∧
      (pressIter pressUp st m).hist = st.hist ∧
      (pressIter pressUp st m).buf.data.length = 128 := by
  intro m
  induction m with
  | zero =>
    intro st i hes hcur hm hb
    refine ⟨rfl, ?_, rfl, hb⟩
    rw [pressIter, hcur]
    rfl
  | succ m ih =>
    intro st i hes hcur hm hb
    have hlt : i + 1 < st.hist.entries.length := by
      rw [hes]
      omega
    have hstep := pressUp_step st i hcur hlt
    have hget : st.hist.entries[i + 1]? = some (es.getD (i + 1) eDflt) := by
      rw [hes]
      exact getElem?_eq_some_getD es (i + 1) (by omega)
    obtain ⟨hw1, hw2⟩ := hwfe _ (getD_mem es (i + 1) (by omega))
    have hdisp := history_display_some (es.getD (i + 1) eDflt) st.buf hb hw1 hw2
    have hbuf1 : (pressUp st).buf =
        history_display (some (es.getD (i + 1) eDflt)) st.buf := by
      simp only [hstep, hget]
    have hcur1 : (pressUp st).cur = some (i + 1) := by
      simp only [hstep]
    have hhist1 : (pressUp st).hist = st.hist := by
      simp only [hstep]
    have hst1es : (pressUp st).hist.entries = es := by
      rw [hhist1, hes]
    have hst1b : (pressUp st).buf.data.length = 128 := by
      rw [hbuf1]
      exact hdisp.2.2.1
    obtain ⟨hlog, hcur2, hhist2, hb2⟩ :=
      ih (pressUp st) (i + 1) hst1es hcur1 (by omega) hst1b
    have htext : bufText (pressUp st) = textOf (es.getD (i + 1) eDflt) := by
      simp only [bufText, hbuf1, hdisp.1]
      exact hdisp.2.1
    refine ⟨?_, ?_, ?_, ?_⟩
    · rw [pressLog, htext, hlog, upLogSpec]
    · rw [pressIter, hcur2]
      congr 1
      omega
    · rw [pressIter, hhist2, hhist1]
    · rw [pressIter]
      exact hb2

theorem down_run (es : List HistEntry)
    (hwfe : ∀ e ∈ es, e.cmd_len + 1 = e.stored.length ∧ e.cmd_len + 1 ≤ 128) :
    ∀ (j : Nat) (st : CliState), st.hist.entries = es → st.cur = some j →
      j < es.length → st.buf.data.length = 128 →
      pressLog pressDown st (j + 1) = downLogSpec es j ∧
      (pressIter pressDown st (j + 1)).cur = none ∧
      (pressIter pressDown st (j + 1)).buf.len = 0 ∧
      (pressIter pressDown st (j + 1)).buf.cursorOffset = 0 := by
  intro j
  induction j with
  | zero =>
    intro st hes hcur hj hb
    have hstep := pressDown_last st hcur
    have hbuf1 : (pressDown st).buf = history_display none st.buf := by
      simp only [hstep]
    have hcur1 : (pressDown st).cur = none := by
      simp only [hstep]
    refine ⟨?_, ?_, ?_, ?_⟩
    · rw [pressLog, pressLog]
      simp only [bufText, hbuf1, downLogSpec]
      rfl
    · rw [pressIter, pressIter]
      exact hcur1
    · rw [pressIter, pressIter, hbuf1]
      rfl
    · rw [pressIter, pressIter, hbuf1]
      rfl
  | succ j ih =>
    intro st hes hcur hj hb
    have hstep := pressDown_step st j hcur
    have hget : st.hist.entries[j]? = some (es.getD j eDflt) := by
      rw [hes]
      exact getElem?_eq_some_getD es j (by omega)
    obtain ⟨hw1, hw2⟩ := hwfe _ (getD_mem es j (by omega))
    have hdisp := history_display_some (es.getD j eDflt) st.buf hb hw1 hw2
    have hbuf1 : (pressDown st).buf =
        history_display (some (es.getD j eDflt)) st.buf := by
      simp only [hstep, hget]
    have hcur1 : (pressDown st).cur = some j := by
      simp only [hstep]
    have hhist1 : (pressDown st).hist = st.hist := by
      simp only [hstep]
    have hst1es : (pressDown st).hist.entries = es := by
      rw [hhist1, hes]
    have hst1b : (pressDown st).buf.data.length = 128 := by
      rw [hbuf1]
      exact hdisp.2.2.1
    obtain ⟨hlog, hcur2, hlen2, hoff2⟩ := ih (pressDown st) hst1es hcur1 (by omega) hst1b
    have htext : bufText (pressDown st) = textOf (es.getD j eDflt) := by
      simp only [bufText, hbuf1, hdisp.1]
      exact hdisp.2.1
    refine ⟨?_, ?_, ?_, ?_⟩
    · rw [pressLog, htext, hlog, downLogSpec]
    · rw [pressIter]
      exact hcur2
    · rw [pressIter]
      exact hlen2
    · rw [pressIter]
      exact hoff2

/-- C6: with commands E1..En resident in history (the newest-first linked
list `entries`, so En is at index 0), pressing cursor-up (ESC [ A) k ≤ n
times from the live line displays En, En-1, ..., En-k+1 — the first k
entries of the newest-first list, which is reverse insertion order — and
then pressing cursor-down (ESC [ B) k times reverses the traversal exactly,
displaying En-k+2, ..., En and finally the empty live line, ending with a
null recall cursor and an empty edit buffer. -/
theorem C6_history_recall_traversal (st : CliState) (k : Nat)
    (hcur : st.cur = none) (hk1 : 1 ≤ k) (hk : k ≤ st.hist.entries.length)
    (hwfe : ∀ e ∈ st.hist.entries, e.cmd_len + 1 = e.stored.length ∧
      e.cmd_len + 1 ≤ 128)
    (hb : st.buf.data.length = 128) :
    pressLog pressUp st k = (st.hist.entries.take k).map textOf ∧
    (pressIter pressUp st k).cur = some (k - 1) ∧
    pressLog pressDown (pressIter pressUp st k) k =
      ((st.hist.entries.take (k - 1)).reverse).map textOf ++ [[]] ∧
    (pressIter pressDown (pressIter pressUp st k) k).cur = none ∧
    (pressIter pressDown (pressIter pressUp st k) k).buf.len = 0 ∧
    (pressIter pressDown (pressIter pressUp st k) k).buf.cursorOffset = 0 := by
  obtain ⟨k', rfl⟩ : ∃ k', k = k' + 1 := ⟨k - 1, by omega⟩
  set es := st.hist.entries with hes
  have hn : k' + 1 ≤ es.length := hk
  have hne : es ≠ [] := by
    intro hnil
    rw [hnil] at hn
    simp at hn
  have hstep := pressUp_start st hcur hne
  have hget : st.hist.entries[0]? = some (es.getD 0 eDflt) := by
    exact getElem?_eq_some_getD es 0 (by omega)
  obtain ⟨hw1, hw2⟩ := hwfe _ (getD_mem es 0 (by omega))
  have hdisp := history_display_some (es.getD 0 eDflt) st.buf hb hw1 hw2
  have hbuf1 : (pressUp st).buf = history_display (some (es.getD 0 eDflt)) st.buf := by
    simp only [hstep, hget]
  have hcur1 : (pressUp st).cur = some 0 := by
    simp only [hstep]
  have hhist1 : (pressUp st).hist = st.hist := by
    simp only [hstep]
  have hst1es : (pressUp st).hist.entries = es := by
    rw [hhist1]
  have hst1b : (pressUp st).buf.data.length = 128 := by
    rw [hbuf1]
    exact hdisp.2.2.1
  obtain ⟨hlog, hcur2, hhist2, hb2⟩ :=
    up_run es hwfe k' (pressUp st) 0 hst1es hcur1 (by omega) hst1b
  have htext : bufText (pressUp st) = textOf (es.getD 0 eDflt) := by
    simp only [bufText, hbuf1, hdisp.1]
    exact hdisp.2.1
  obtain ⟨e0, es', hesc⟩ := List.exists_cons_of_ne_nil hne
  have hsplit0 : es = es.getD 0 eDflt :: es.drop 1 := by
    rw [hesc]
    rfl
  have hlogup : pressLog pressUp st (k' + 1) = (es.take (k' + 1)).map textOf := by
    rw [pressLog, htext, hlog, upLogSpec_eq es k' 0 (by omega)]
    conv_rhs => rw [hsplit0]
    rw [List.take_succ_cons, List.map_cons]
  have hitercur : (pressIter pressUp st (k' + 1)).cur = some k' := by
    rw [pressIter, hcur2]
    norm_num
  have hiteres : (pressIter pressUp st (k' + 1)).hist.entries = es := by
    rw [pressIter, hhist2, hhist1]
  have hiterb : (pressIter pressUp st (k' + 1)).buf.data.length = 128 := by
    rw [pressIter]
    exact hb2
  obtain ⟨hlogdn, hcur3, hlen3, hoff3⟩ :=
    down_run es hwfe k' (pressIter pressUp st (k' + 1)) hiteres hitercur (by omega) hiterb
  refine ⟨hlogup, by simpa using hitercur, ?_, hcur3, hlen3, hoff3⟩
  rw [hlogdn, downLogSpec_eq es k' (by omega)]
  simp

/-- Two distinct one-byte commands in history: "b" is the newest entry,
"a" the oldest. -/
def c6state : CliState :=
  { prev0 := 0, prev1 := 0, buf := cmdBuffer0,
    hist := { entries := [⟨16, 16, 1, [98, 0]⟩, ⟨0, 16, 1, [97, 0]⟩], hint := 32 },
    cur := none }

/-- Witness for C6 with two entries and k = 2: up shows "b" then "a", down
shows "b" then the empty line with a cleared cursor. -/
theorem C6_history_recall_witness :
    pressLog pressUp c6state 2 = (c6state.hist.entries.take 2).map textOf ∧
      (pressIter pressUp c6state 2).cur = some 1 ∧
      pressLog pressDown (pressIter pressUp c6state 2) 2 =
        ((c6state.hist.entries.take 1).reverse).map textOf ++ [[]] ∧
      (pressIter pressDown (pressIter pressUp c6state 2) 2).cur = none ∧
      (pressIter pressDown (pressIter pressUp c6state 2) 2).buf.len = 0 ∧
      (pressIter pressDown (pressIter pressUp c6state 2) 2).buf.cursorOffset = 0 :=
  C6_history_recall_traversal c6state 2 rfl (by decide) (by decide) (by decide)
    (by decide)

end Mcli
